import Mathlib

/-!
# Verification of the yt chainHOP parallel clustering engine

Shallow embedding of `yt/lagos/chainHOP/chainHOP.py` (class `RunChainHOP`).

Conventions of the embedding:
* Python floats (densities, thresholds, positions, boundary densities) are
  modelled as rationals (`ℚ`): only order comparisons and a single halving
  appear in the code, so `ℚ` is a faithful model of the comparisons.
* numpy integer arrays (`chainID`, `index`) are modelled as `List Int`;
  particle indices are `Nat`.
* Python dicts keyed by chain ids are modelled as association lists
  (`List (Int × α)`) in insertion order; iteration over a dict is iteration
  over the association list, which matches the insertion-ordered iteration
  the code relies on (small-int-keyed dicts inserted in increasing key
  order, e.g. `densest_in_chain`, `reverse_map`, `chain_densest_n`).
* `sys.exit()` and Python runtime errors (unbound names) are modelled with
  an `Except` error monad; unbounded `while` loops and unbounded recursion
  are modelled with explicit fuel, `none`/`.error .fuelOut` marking
  divergence of the source program.
-/

namespace ChainHOP

/-- Python dict lookup `d[k]` as an optional value (first binding wins;
keys are unique in all states the code builds). -/
def dictGet (l : List (Int × α)) (k : Int) : Option α :=
  (l.find? (fun p => p.1 = k)).map Prod.snd

/-- Python dict lookup with a default, for reads that are total in the code. -/
def dictGetD (l : List (Int × α)) (k : Int) (d : α) : α :=
  (dictGet l k).getD d

/-- Python dict assignment `d[k] = v`: replace the value at an existing key
in place, otherwise append the new binding (insertion order preserved). -/
def dictSet (l : List (Int × α)) (k : Int) (v : α) : List (Int × α) :=
  if l.any (fun p => p.1 = k) then
    l.map (fun p => if p.1 = k then (k, v) else p)
  else
    l ++ [(k, v)]

/-! ## `_translate_shift` (chainHOP.py lines 83–103) -/

/-- The 27-entry shift dictionary `d` of `_translate_shift`, with key `i`
holding the shift vector; entries listed in key order 0–26 exactly as in the
source. -/
def shiftTable : List (List Int) :=
  [[-1,-1,-1], [-1,-1,0], [-1,-1,1], [-1,0,-1], [-1,0,0],
   [-1,0,1], [-1,1,-1], [-1,1,0], [-1,1,1], [0,-1,-1],
   [0,-1,0], [0,-1,1], [0,0,-1], [0,0,0], [0,0,1],
   [0,1,-1], [0,1,0], [0,1,1], [1,-1,-1], [1,-1,0],
   [1,-1,1], [1,0,-1], [1,0,0], [1,0,1], [1,1,-1],
   [1,1,0], [1,1,1]]

/-- numpy `arr.all()`: true iff every entry is nonzero. -/
def npAll (v : List Int) : Bool :=
  v.all (fun x => x ≠ 0)

/-- `_translate_shift(i=..., shift=...)`.  Given `i`, returns the shift
vector `d[i]` (`Sum.inl`); given `shift`, the source compares
`d[key].all() == shift.all()` — numpy `.all()` of each side, i.e. the
boolean "all entries nonzero" — over the keys in dict order 0..26 and
returns the first key for which the booleans agree (`Sum.inr`); with
neither argument (or when no key matches) it returns `None`. -/
def translate_shift (i : Option Nat) (shift : Option (List Int)) :
    Option (List Int ⊕ Nat) :=
  match i, shift with
  | none, none => none
  | some n, _ => some (Sum.inl (shiftTable.getD n []))
  | none, some s =>
      ((List.range 27).find? (fun key => npAll (shiftTable.getD key []) == npAll s)).map Sum.inr

/-! ## `_translate_global_to_local_particle_index` (lines 260–269) -/

/-- `_translate_global_to_local_particle_index`: scans `self.index` with
`enumerate` and, on a match, returns `particle_index` — the *element* of the
scan, not the enumeration counter; returns `-1` when no entry matches. -/
def translate_global_to_local_particle_index (index : List Int) (real_index : Int) : Int :=
  match index with
  | [] => -1
  | particle_index :: rest =>
      if particle_index = real_index then particle_index
      else translate_global_to_local_particle_index rest real_index

/-! ## Inputs of `RunChainHOP` and the kd-tree adapter outputs -/

/-- The constructor inputs of `RunChainHOP` relevant to the core, together
with the outputs that the external kd-tree adapter deposits (per-particle
density and nearest-neighbour tag lists), which the core only consumes
(spec §4.1).  `index` is the partition-independent global particle index
array.  Densities and coordinates are modelled as rationals. -/
structure HopParams where
  threshold : ℚ
  LE : ℚ × ℚ × ℚ
  RE : ℚ × ℚ × ℚ
  xpos : List ℚ
  ypos : List ℚ
  zpos : List ℚ
  index : List Int
  density : List ℚ
  NNtags : List (List Nat)

/-- `self.size = len(self.xpos)`. -/
def HopParams.size (P : HopParams) : Nat := P.xpos.length

/-- `self.saddlethresh = 2.5 * threshold`. -/
def HopParams.saddlethresh (P : HopParams) : ℚ := 5 / 2 * P.threshold

/-- `self.peakthresh = 3 * threshold`. -/
def HopParams.peakthresh (P : HopParams) : ℚ := 3 * P.threshold

/-- `_is_inside`: a particle is inside the owned region iff its position is
`≥ LE` and `< RE` on every axis. -/
def HopParams.is_inside (P : HopParams) (i : Nat) : Bool :=
  decide (P.LE.1 ≤ P.xpos.getD i 0) && decide (P.xpos.getD i 0 < P.RE.1) &&
  decide (P.LE.2.1 ≤ P.ypos.getD i 0) && decide (P.ypos.getD i 0 < P.RE.2.1) &&
  decide (P.LE.2.2 ≤ P.zpos.getD i 0) && decide (P.zpos.getD i 0 < P.RE.2.2)

/-- `_find_shift`: an inside particle has shift `[0,0,0]`; otherwise each
coordinate contributes `1` when at or beyond the right edge and `-1` when
below the left edge. -/
def HopParams.find_shift (P : HopParams) (i : Nat) : List Int :=
  if P.is_inside i then [0, 0, 0]
  else
    [if P.RE.1 ≤ P.xpos.getD i 0 then 1 else if P.xpos.getD i 0 < P.LE.1 then -1 else 0,
     if P.RE.2.1 ≤ P.ypos.getD i 0 then 1 else if P.ypos.getD i 0 < P.LE.2.1 then -1 else 0,
     if P.RE.2.2 ≤ P.zpos.getD i 0 then 1 else if P.zpos.getD i 0 < P.LE.2.2 then -1 else 0]

/-! ## `_densestNN` (lines 105–131) -/

/-- numpy `argmax` over a tag row: scan the tags keeping the first one of
maximal density. -/
def densest_tag_aux (density : List ℚ) : List Nat → Nat → Nat
  | [], best => best
  | t :: rest, best =>
      if density.getD best 0 < density.getD t 0 then densest_tag_aux density rest t
      else densest_tag_aux density rest best

/-- The densest nearest neighbour of a particle given its neighbour tag row:
`chunk_NNtags[i, argmax(n_dens[i])]`.  Rows produced by the adapter are
never empty (they have `num_neighbors` entries). -/
def densest_tag (density : List ℚ) (row : List Nat) : Nat :=
  match row with
  | [] => 0
  | t :: rest => densest_tag_aux density rest t

/-- `_densestNN`: for every particle, the tag of its densest nearest
neighbour.  The source processes particles in chunks of 10000 purely to
bound the adapter scratch space; each particle's entry depends only on its
own row, so the chunking is semantically a single pass. -/
def densestNNcompute (density : List ℚ) (NNtags : List (List Nat)) : List Nat :=
  NNtags.map (densest_tag density)

/-! ## `_build_chains` / `_recurse_links` (lines 133–184) -/

/-- The mutable per-particle state of chain building: the `chainID` array
(initialised to `-1`), the `densest_in_chain` dict, and the list of padded
particles recorded when a chain terminates in the padding. -/
structure HopState where
  chainID : List Int
  densest_in_chain : List (Int × ℚ)
  padded_particles : List Nat
deriving DecidableEq

/-- The state at the start of `_chain_hop`: `chainID = -1` everywhere. -/
def hopInit (P : HopParams) : HopState :=
  { chainID := List.replicate P.size (-1), densest_in_chain := [], padded_particles := [] }

/-- `_recurse_links(pi, chainIDmax)`, with explicit fuel standing for
Python's (unbounded) recursion depth; `none` models non-termination /
exhaustion of the interpreter stack.  The three branches are, in source
order: (a) the densest neighbour has a chain id and the particle is inside
— adopt that id; (b) the particle is self-densest or in the padding — mint
the chain `chainIDmax`, record its density in `densest_in_chain`, and
record padded particles; (c) otherwise recurse on the densest neighbour
and propagate the returned id. -/
def recurse_links (P : HopParams) (dNN : List Nat) :
    Nat → HopState → Nat → Int → Option (HopState × Int)
  | 0, _, _, _ => none
  | fuel + 1, st, pi, chainIDmax =>
      let nn := dNN.getD pi 0
      let inside := P.is_inside pi
      let nn_chainID := st.chainID.getD nn (-1)
      if nn_chainID > -1 ∧ inside then
        some ({ st with chainID := st.chainID.set pi nn_chainID }, nn_chainID)
      else if nn = pi ∨ ¬ inside then
        some ({ chainID := st.chainID.set pi chainIDmax,
                densest_in_chain :=
                  dictSet st.densest_in_chain chainIDmax (P.density.getD pi 0),
                padded_particles :=
                  st.padded_particles ++ (if inside then [] else [pi]) }, chainIDmax)
      else
        match recurse_links P dNN fuel st nn chainIDmax with
        | none => none
        | some (st2, chainIDnew) =>
            some ({ st2 with chainID := st2.chainID.set pi chainIDnew }, chainIDnew)

/-- One iteration of the `_build_chains` loop body for particle `i`:
particles already in a chain, in the padding, or below threshold are
skipped; otherwise `_recurse_links` runs and `chainIDmax` advances exactly
when the returned id is the entering `chainIDmax`. -/
def build_chains_step (P : HopParams) (dNN : List Nat) (fuel : Nat)
    (acc : Option (HopState × Int)) (i : Nat) : Option (HopState × Int) :=
  match acc with
  | none => none
  | some (st, chainIDmax) =>
      if st.chainID.getD i (-1) > -1 ∨ ¬ P.is_inside i ∨
          P.density.getD i 0 < P.threshold then
        some (st, chainIDmax)
      else
        match recurse_links P dNN fuel st i chainIDmax with
        | none => none
        | some (st2, chainIDnew) =>
            some (st2, if chainIDnew = chainIDmax then chainIDmax + 1 else chainIDmax)

/-- `_build_chains`: fold the loop body over all particles starting from
the freshly initialised state; returns the final state and the number of
chains created. -/
def build_chains (P : HopParams) (dNN : List Nat) (fuel : Nat) :
    Option (HopState × Int) :=
  (List.range P.size).foldl (build_chains_step P dNN fuel) (some (hopInit P, 0))

/-- A particle at which a chain is created: its densest neighbour is itself,
or it lies outside the owned region. -/
def terminalPart (P : HopParams) (dNN : List Nat) (i : Nat) : Prop :=
  dNN.getD i 0 = i ∨ P.is_inside i = false

instance (P : HopParams) (dNN : List Nat) (i : Nat) :
    Decidable (terminalPart P dNN i) := by
  unfold terminalPart
  infer_instance

/-- Verification invariant for chain building: chain ids are `-1` or below
the running `chainIDmax`, every created chain has exactly one terminal
member whose density is the recorded densest-in-chain value, and
`densest_in_chain` holds exactly the created chain ids. -/
def chainInv (P : HopParams) (dNN : List Nat) (st : HopState) (cmax : Int) : Prop :=
  0 ≤ cmax ∧
  st.chainID.length = P.size ∧
  (∀ j : Nat, -1 ≤ st.chainID.getD j (-1) ∧ st.chainID.getD j (-1) < cmax) ∧
  (∀ c : Int, 0 ≤ c → c < cmax →
    ∃ q, q < P.size ∧ st.chainID.getD q (-1) = c ∧ terminalPart P dNN q ∧
      dictGet st.densest_in_chain c = some (P.density.getD q 0) ∧
      (∀ j, j < P.size → st.chainID.getD j (-1) = c → terminalPart P dNN j → j = q)) ∧
  (∀ c : Int, (dictGet st.densest_in_chain c).isSome = true → 0 ≤ c ∧ c < cmax)

/-! ## `_translate_groupIDs` (lines 485–503, chain-id rewrite loop) -/

/-- The first loop of `_translate_groupIDs`: every particle with a chain id
other than `-1` has it replaced by `reverse_map[chainID]`; `-1` particles
are skipped.  (The second half of the source function only builds the
derived `densest_in_group` dict and does not touch `chainID`.) -/
def translate_groupIDs (rm : List (Int × Int)) (chainID : List Int) : List Int :=
  (List.range chainID.length).foldl
    (fun acc i =>
      if acc.getD i (-1) = -1 then acc
      else acc.set i (dictGetD rm (acc.getD i (-1)) (-1)))
    chainID

/-! ## `_build_uphill_info` / `_communicate_uphill_info` /
`_connect_chains_across_tasks` (lines 200–288) and `_chain_hop` -/

/-- Python control-flow escapes: `sys.exit()`, a `NameError` on an unbound
name, exhaustion of the interpreter recursion limit, and the modelling
fuel for unbounded `while` loops. -/
inductive PyErr where
  | sysExit : PyErr
  | nameErr : PyErr
  | recursionErr : PyErr
  | fuelOut : PyErr
deriving DecidableEq

/-- `PaddedPart` (lines 9–14): note that `_build_uphill_info` passes the
local index as `local_index` and the global index as `particle_index`. -/
structure PaddedPart where
  local_index : Nat
  particle_index : Int
  chainID : Int
  shift : List Int
deriving DecidableEq

/-- The integer key `_translate_shift(shift=...)` produces for a shift
vector.  The buggy scan always matches key 0 (all-nonzero vectors) or key 1
(vectors with a zero entry), so the `None` fallthrough never happens; it is
mapped to the out-of-range marker 27. -/
def shift_to_index (shift : List Int) : Nat :=
  match translate_shift none (some shift) with
  | some (Sum.inr k) => k
  | _ => 27

/-- The shift vector `_translate_shift(i=...)` produces for a key. -/
def translate_shift_vec (i : Nat) : List Int :=
  match translate_shift (some i) none with
  | some (Sum.inl v) => v
  | _ => []

/-- The per-direction counts and record lists `_build_uphill_info`
constructs from `self.padded_particles` (27 buckets, keyed by the
shift-to-integer translation of each particle's shift vector). -/
def uphill_build (P : HopParams) (st : HopState) : List Nat × List (List PaddedPart) :=
  st.padded_particles.foldl
    (fun acc part =>
      let real_index := P.index.getD part 0
      let shift := P.find_shift part
      let shift_index := shift_to_index shift
      let chainID := st.chainID.getD part (-1)
      (acc.1.set shift_index (acc.1.getD shift_index 0 + 1),
       acc.2.set shift_index
         (acc.2.getD shift_index [] ++ [⟨part, real_index, chainID, shift⟩])))
    (List.replicate 27 0, List.replicate 27 [])

/-- `_build_uphill_info`: after filling `uphill_info` and
`uphill_info_count` it unconditionally executes `sys.exit()` (line 218), so
it never returns normally. -/
def build_uphill_info (P : HopParams) (st : HopState) :
    Except PyErr (List Nat × List (List PaddedPart)) :=
  let _d := uphill_build P st
  Except.error PyErr.sysExit

/-- The count-sending loop of `_communicate_uphill_info` (lines 227–232):
for each of the 27 keys except 13 (ourselves), send this direction's count
to the neighbour determined by the shift vector.  `nbr` models the
`_find_neighbor_3d` lookup of the (absent) parallel-interface base class.
Each message is the pair (destination task, count). -/
def send_counts (nbr : List Int → Int) (counts : List Nat) : List (Int × Int) :=
  ((List.range 27).filter (fun i => i ≠ 13)).map
    (fun i => (nbr (translate_shift_vec i), (counts.getD i 0 : Int)))

/-- The payload-sending loop of `_communicate_uphill_info` (lines 242–249):
directions with a zero count are skipped; for a non-zero count, the first
record evaluates `na.array([info.particle_index, chainID])` where `chainID`
is an unbound name (the source means `info.chainID`), raising `NameError`
before anything is sent. -/
def send_payloads (nbr : List Int → Int) (counts : List Nat)
    (infos : List (List PaddedPart)) : Except PyErr (List (Int × (Int × Int))) :=
  (List.range 27).foldl
    (fun acc shift_index =>
      match acc with
      | .error e => .error e
      | .ok sent =>
          if counts.getD shift_index 0 = 0 then .ok sent
          else
            match infos.getD shift_index [] with
            | [] => .ok sent
            | _ :: _ => .error PyErr.nameErr)
    (.ok [])

/-- The `while changes` loop of `_connect_chains_across_tasks`
(lines 277–287), with the `changes` counter made explicit: each round
resets `changes` to 0, rebuilds the uphill info (which exits), would then
communicate it, and rewrites the received records in place; nothing in the
body ever increments `changes` or writes `self.chainID`. -/
def connect_chains_loop (P : HopParams) (nbr : List Int → Int) :
    Nat → Nat → HopState → Except PyErr HopState
  | _, 0, st => .ok st
  | 0, _ + 1, _ => .error PyErr.fuelOut
  | fuel + 1, _ + 1, st =>
      match build_uphill_info P st with
      | .error e => .error e
      | .ok d =>
          match send_payloads nbr d.1 d.2 with
          | .error e => .error e
          | .ok _ => connect_chains_loop P nbr fuel 0 st

/-- `_connect_chains_across_tasks`: enter the loop with `changes = 1`. -/
def connect_chains_across_tasks (P : HopParams) (nbr : List Int → Int)
    (fuel : Nat) (st : HopState) : Except PyErr HopState :=
  connect_chains_loop P nbr fuel 1 st

/-- `_globally_assign_chainIDs` (lines 186–198): with `chain_info` the
gathered per-task chain counts and `mine` this task's id, add the sum of
the counts of all lower-numbered tasks to every chain id other than
`-1`. -/
def globally_assign_chainIDs (mine : Nat) (chain_info : List (Nat × Int))
    (chainID : List Int) : List Int :=
  let my_first_id := ((chain_info.filter (fun kv => kv.1 < mine)).map Prod.snd).sum
  chainID.map (fun c => if c ≠ -1 then c + my_first_id else c)

/-- The stages of the `_chain_hop` pipeline (methods of `RunChainHOP`). -/
inductive Stage where
  | initKDTree : Stage
  | isInside : Stage
  | densityStage : Stage
  | densestNNStage : Stage
  | buildChainsStage : Stage
  | assignChainIDs : Stage
  | buildUphillInfo : Stage
  | connectChainsStage : Stage
  | buildGroupsStage : Stage
  | pareGroups : Stage
  | translateGroupIDsStage : Stage
deriving DecidableEq

/-- `_chain_hop` (lines 505–545), as called from the constructor: the
kd-tree setup, inside test and density/NN queries deposit their outputs
(already fields of `P`); then chains are built, chain ids are globally
offset, and `_build_uphill_info` runs.  Everything after that point —
`_connect_chains`, `_build_groups`, `_pare_groups_by_max_dens`,
`_translate_groupIDs` — is commented out in the source.  The result is
paired with the list of stages that started. -/
def chain_hop (P : HopParams) (mine : Nat) (chain_info : List (Nat × Int))
    (fuel : Nat) : Except PyErr (HopState × Int) × List Stage :=
  match build_chains P (densestNNcompute P.density P.NNtags) fuel with
  | none =>
      (Except.error PyErr.recursionErr,
        [Stage.initKDTree, Stage.isInside, Stage.densityStage, Stage.densestNNStage,
         Stage.buildChainsStage])
  | some (st, chain_count) =>
      match build_uphill_info P
          { st with chainID := globally_assign_chainIDs mine chain_info st.chainID } with
      | .error e =>
          (Except.error e,
            [Stage.initKDTree, Stage.isInside, Stage.densityStage, Stage.densestNNStage,
             Stage.buildChainsStage, Stage.assignChainIDs, Stage.buildUphillInfo])
      | .ok _ =>
          (Except.ok
            ({ st with chainID := globally_assign_chainIDs mine chain_info st.chainID },
              chain_count),
            [Stage.initKDTree, Stage.isInside, Stage.densityStage, Stage.densestNNStage,
             Stage.buildChainsStage, Stage.assignChainIDs, Stage.buildUphillInfo])

/-! ## Concrete particle configurations used as test inputs -/

/-- Two equally dense particles, each the other's sole neighbour, both well
inside the owned region: the densest-neighbour links form a 2-cycle of
equal densities. -/
def exampleCycleP : HopParams :=
  { threshold := 1, LE := (0, 0, 0), RE := (10, 10, 10),
    xpos := [1, 2], ypos := [1, 1], zpos := [1, 1], index := [0, 1],
    density := [5, 5], NNtags := [[1], [0]] }

/-- Two particles with strictly ascending densest-neighbour links ending at
a self-densest particle. -/
def exampleAscP : HopParams :=
  { threshold := 1, LE := (0, 0, 0), RE := (10, 10, 10),
    xpos := [1, 2], ypos := [1, 1], zpos := [1, 1], index := [0, 1],
    density := [1, 5], NNtags := [[1], [1]] }

/-- A dense inside particle (its own densest neighbour) next to a
below-threshold particle; both list both particles as neighbours. -/
def exampleLowP : HopParams :=
  { threshold := 3, LE := (0, 0, 0), RE := (10, 10, 10),
    xpos := [1, 2], ypos := [1, 1], zpos := [1, 1], index := [0, 1],
    density := [5, 1], NNtags := [[0, 1], [0, 1]] }

/-! ## Compaction step of `_build_groups` (lines 449–464) -/

/-- The in-place scan `for chain in reverse_map: if reverse_map[chain]==gID:
reverse_map[chain]=t` rewriting one group id to another. -/
def sweep_reverse_map (rm : List (Int × Int)) (gOld gNew : Int) : List (Int × Int) :=
  rm.map (fun p => if p.2 = gOld then (p.1, gNew) else p)

/-- Python `sorted(set(vals))`: the distinct values in ascending order. -/
def sortedSet (vals : List Int) : List Int :=
  vals.dedup.insertionSort (· ≤ ·)

/-- The loop `for t,gID in enumerate(temp[1:])` of the compaction step:
`t` is the running enumeration counter, and `gID` is rewritten to `t`
throughout `reverse_map` whenever the two differ. -/
def compact_loop (t : Nat) (acc : List (Int × Int)) : List Int → List (Int × Int)
  | [] => acc
  | gID :: rest =>
      compact_loop (t + 1) (if gID ≠ (t : Int) then sweep_reverse_map acc gID t else acc) rest

/-- The compaction tail of `_build_groups`: `temp` is the sorted list of the
distinct values of `reverse_map` (`list(Set(temp))` then `.sort()`); the loop
`for t,gID in enumerate(temp[1:])` rewrites `gID` to `t` whenever they
differ, skipping `temp[0]` on the comment "-1 is always the first item"; the
returned count is `len(temp) - 1`. -/
def compact_groupIDs (rm : List (Int × Int)) : List (Int × Int) × Int :=
  let temp := sortedSet (rm.map Prod.snd)
  (compact_loop 0 rm (temp.drop 1), (temp.length : Int) - 1)

/-! ## `_build_groups` (lines 370–464) -/

/-- The mutable state of `_build_groups`: `reverse_map`, `densestbound`,
and the deferred fringe lists `g_high` / `g_low` / `g_dens`. -/
structure BGState where
  reverse_map : List (Int × Int)
  densestbound : List (Int × ℚ)
  g_high : List Int
  g_low : List Int
  g_dens : List ℚ
deriving DecidableEq

/-- The seeding loop of `_build_groups` (lines 380–385): every chain whose
densest-member density is at or above `peakthresh` becomes its own group,
with sequential group ids. -/
def seed_groups (pk : ℚ) (din : List (Int × ℚ)) (rm : List (Int × Int)) :
    List (Int × Int) × Int :=
  din.foldl
    (fun acc p =>
      if pk ≤ p.2 then (dictSet acc.1 p.1 acc.2, acc.2 + 1) else acc)
    (rm, 0)

/-- One step of the double loop over chain linkages (lines 387–423), for
the link `chain_high → (chain_low, dens)`: both chains below `peakthresh`
defer the link to the fringe lists; both at or above merge their groups when
`dens` reaches `saddlethresh` (redirecting every chain of the lower group);
otherwise the sub-peak `chain_low` attaches to `chain_high`'s group when
`dens` beats its recorded `densestbound`. -/
def link_step (pk sd : ℚ) (din : List (Int × ℚ)) (chain_high : Int)
    (s : BGState) (pr : Int × ℚ) : BGState :=
  let chain_low := pr.1
  let dens := pr.2
  let max_dens_high := dictGetD din chain_high 0
  let max_dens_low := dictGetD din chain_low 0
  if max_dens_high < pk ∧ max_dens_low < pk then
    { s with g_high := s.g_high ++ [chain_high], g_low := s.g_low ++ [chain_low],
             g_dens := s.g_dens ++ [dens] }
  else if pk ≤ max_dens_high ∧ pk ≤ max_dens_low then
    if dens < sd then s
    else
      { s with reverse_map :=
          (sweep_reverse_map s.reverse_map (dictGetD s.reverse_map chain_low (-1))
            (dictGetD s.reverse_map chain_high (-1))) }
  else
    if dictGetD s.densestbound chain_low (-1) < dens then
      { s with densestbound := dictSet s.densestbound chain_low dens,
               reverse_map := dictSet s.reverse_map chain_low
                 (dictGetD s.reverse_map chain_high (-1)) }
    else s

/-- The double loop over all recorded chain linkages. -/
def main_links (pk sd : ℚ) (din : List (Int × ℚ))
    (cdn : List (Int × List (Int × ℚ))) (s : BGState) : BGState :=
  cdn.foldl (fun s2 hp => hp.2.foldl (link_step pk sd din hp.1) s2) s

/-- One fringe edge of the propagation loop (lines 435–448): when `dens`
and the better-connected side's `densestbound` both beat `chain_low`'s
`densestbound`, `chain_low` takes the weaker of the two as its new bound
and adopts `chain_high`'s group; `changes` counts the rewrites. -/
def fringe_step (sc : BGState × Nat) (e : (Int × Int) × ℚ) : BGState × Nat :=
  let chain_high := e.1.1
  let chain_low := e.1.2
  let dens := e.2
  let s := sc.1
  if dictGetD s.densestbound chain_low (-1) < dens ∧
      dictGetD s.densestbound chain_low (-1) <
        dictGetD s.densestbound chain_high (-1) then
    ({ s with
        densestbound := dictSet s.densestbound chain_low
          (if dens < dictGetD s.densestbound chain_high (-1) then dens
           else dictGetD s.densestbound chain_high (-1)),
        reverse_map := dictSet s.reverse_map chain_low
          (dictGetD s.reverse_map chain_high (-1)) },
     sc.2 + 1)
  else sc

/-- One full pass of the fringe propagation over the deferred edges. -/
def fringe_pass (s : BGState) : BGState × Nat :=
  ((s.g_high.zip s.g_low).zip s.g_dens).foldl fringe_step (s, 0)

/-- The `while changes` fixed-point loop around the fringe passes, with
fuel. -/
def fringe_loop : Nat → BGState → Option BGState
  | 0, _ => none
  | fuel + 1, s =>
      match fringe_pass s with
      | (s2, 0) => some s2
      | (s2, _ + 1) => fringe_loop fuel s2

/-- `_build_groups`: seed peak groups, process all recorded linkages,
propagate along the fringe to a fixed point, then compact the group ids.
Returns the rewritten `reverse_map` and the group count. -/
def build_groups (pk sd : ℚ) (chain_count : Nat) (din : List (Int × ℚ))
    (cdn : List (Int × List (Int × ℚ))) (rm : List (Int × Int)) (fuel : Nat) :
    Option (List (Int × Int) × Int) :=
  let s0 : BGState :=
    { reverse_map := (seed_groups pk din rm).1,
      densestbound := (List.range chain_count).map (fun i => (Int.ofNat i, (-1 : ℚ))),
      g_high := [], g_low := [], g_dens := [] }
  let s1 := main_links pk sd din cdn s0
  match fringe_loop fuel s1 with
  | none => none
  | some s2 => some (compact_groupIDs s2.reverse_map)

/-- The `reverse_map` as `_connect_chains` initialises it: every chain id
below `chain_count` mapped to `-1`. -/
def initial_reverse_map (chain_count : Nat) : List (Int × Int) :=
  (List.range chain_count).map (fun i => (Int.ofNat i, (-1 : Int)))

/-- Verification coupling between a first run of `_build_groups` (state
`s`) and a re-run on the first run's output (state `t`): the bound and
fringe data agree, the key lists agree, the re-run agrees with the first
run on every chain the first run has already assigned, and on a chain the
first run never assigns (its pre-compaction value `pre1` is `-1`) the
re-run also holds `-1`. -/
def bgCoupled (pre1 : List (Int × Int)) (s t : BGState) : Prop :=
  t.densestbound = s.densestbound ∧
  t.g_high = s.g_high ∧ t.g_low = s.g_low ∧ t.g_dens = s.g_dens ∧
  t.reverse_map.map Prod.fst = s.reverse_map.map Prod.fst ∧
  (∀ c : Int,
    (dictGetD s.reverse_map c (-1) ≠ -1 →
      dictGetD t.reverse_map c (-1) = dictGetD s.reverse_map c (-1)) ∧
    (dictGetD s.reverse_map c (-1) = -1 → dictGetD pre1 c (-1) = -1 →
      dictGetD t.reverse_map c (-1) = -1))

/-- Run invariants of `_build_groups` needed for the coupling: the key list
of `reverse_map` is fixed, fringe chains are known chains, group values are
`-1` or non-negative, a chain with a recorded `densestbound` has been
assigned, and every peak chain has been assigned (after seeding). -/
def bgGood (pk : ℚ) (din : List (Int × ℚ)) (keys0 : List Int) (s : BGState) : Prop :=
  s.reverse_map.map Prod.fst = keys0 ∧
  (∀ x ∈ s.g_low, x ∈ keys0) ∧
  (∀ c : Int, -1 ≤ dictGetD s.reverse_map c (-1)) ∧
  (∀ c : Int, (-1 : ℚ) < dictGetD s.densestbound c (-1) →
    dictGetD s.reverse_map c (-1) ≠ -1) ∧
  (∀ p ∈ din, pk ≤ p.2 → dictGetD s.reverse_map p.1 (-1) ≠ -1) ∧
  (∀ c : Int, (-1 : ℚ) ≤ dictGetD s.densestbound c (-1))


end ChainHOP

namespace ChainHOP

/-- C2: on the index array `[7, 5]` and received global particle index `5`,
the unique local index `j` with `index[j] = 5` is `j = 1`, but
`_translate_global_to_local_particle_index` returns `5` — the matched
*global* index itself (`return particle_index` instead of `return index`) —
so the function does not return the local index; nor is any count of dropped
records kept anywhere in the class. -/
theorem translate_global_to_local_returns_global_index :
    translate_global_to_local_particle_index [7, 5] 5 = 5 ∧
    ([7, 5] : List Int).get? 1 = some 5 ∧
    (∀ j : Fin 2, ([7, 5] : List Int).get j = 5 → (j : Nat) = 1) ∧
    (5 : Int) ≠ (1 : Nat) := by
  refine ⟨by decide, by decide, by decide, by decide⟩

/-- C5: the 27-way shift encoding is not a bijection: `_translate_shift`
translates `i = 2` to the shift vector `[-1,-1,1]`, but translating that
vector back yields `0` (the comparison `d[key].all() == shift.all()`
compares the "all entries nonzero" booleans, so the first key of the same
all-nonzero class wins), and the distinct vectors `[1,1,1]` and
`[-1,-1,-1]` both translate to `0`. -/
theorem translate_shift_not_bijective :
    translate_shift (some 2) none = some (Sum.inl [-1, -1, 1]) ∧
    translate_shift none (some [-1, -1, 1]) = some (Sum.inr 0) ∧ (0 : Nat) ≠ 2 ∧
    translate_shift none (some [1, 1, 1]) = some (Sum.inr 0) ∧
    translate_shift none (some [-1, -1, -1]) = some (Sum.inr 0) ∧
    ([1, 1, 1] : List Int) ≠ [-1, -1, -1] := by
  refine ⟨by decide, by decide, by decide, by decide, by decide, by decide⟩

/-! ### Helper lemmas: list update/lookup and the dict model -/

theorem getD_set_ne {α : Type} : ∀ (l : List α) (i j : Nat) (v d : α), i ≠ j →
    (l.set i v).getD j d = l.getD j d
  | [], _, _, _, _, _ => rfl
  | _ :: _, 0, 0, _, _, h => absurd rfl h
  | _ :: _, 0, _ + 1, _, _, _ => rfl
  | _ :: _, _ + 1, 0, _, _, _ => rfl
  | _ :: l, i + 1, j + 1, v, d, h => getD_set_ne l i j v d (by omega)

theorem getD_set_self {α : Type} : ∀ (l : List α) (i : Nat) (v d : α), i < l.length →
    (l.set i v).getD i d = v
  | [], i, _, _, h => absurd h (by simp)
  | _ :: _, 0, _, _, _ => rfl
  | _ :: l, i + 1, v, d, h => getD_set_self l i v d (by simpa using h)

theorem getD_replicate {α : Type} : ∀ (n j : Nat) (c : α), (List.replicate n c).getD j c = c
  | 0, _, _ => rfl
  | _ + 1, 0, _ => rfl
  | n + 1, j + 1, c => getD_replicate n j c

theorem length_set_eq {α : Type} (l : List α) (i : Nat) (v : α) :
    (l.set i v).length = l.length := by
  simp

theorem find?_map_dictSet {α : Type} (k : Int) (v : α) :
    ∀ l : List (Int × α),
      (l.map (fun p => if p.1 = k then (k, v) else p)).find? (fun p => p.1 = k) =
        if l.any (fun p => p.1 = k) then some (k, v) else none := by
  intro l
  induction l with
  | nil => rfl
  | cons p l ih =>
      by_cases hp : p.1 = k
      · rw [List.map_cons, if_pos hp, List.find?_cons_of_pos _ (by simp),
          if_pos (by simp [hp])]
      · rw [List.map_cons, if_neg hp, List.find?_cons_of_neg _ (by simpa using hp), ih]
        by_cases hl : l.any (fun p => p.1 = k)
        · rw [if_pos hl, if_pos (by simp [List.any_cons, hp, hl] )]
        · rw [if_neg hl, if_neg (by simp [List.any_cons, hp]; simpa using hl)]

theorem find?_of_not_any {α : Type} (k : Int) :
    ∀ l : List (Int × α), ¬ (l.any (fun p => p.1 = k) = true) →
      l.find? (fun p => p.1 = k) = none := by
  intro l
  induction l with
  | nil => intro _; rfl
  | cons p l ih =>
      intro h
      simp only [List.any_cons, Bool.or_eq_true] at h
      push_neg at h
      rw [List.find?_cons_of_neg (a := p) l h.1, ih h.2]

theorem find?_map_preserve {α : Type} (k c : Int) (v : α) (hck : c ≠ k) :
    ∀ l : List (Int × α),
      (l.map (fun p => if p.1 = k then (k, v) else p)).find? (fun p => p.1 = c) =
        l.find? (fun p => p.1 = c) := by
  intro l
  induction l with
  | nil => rfl
  | cons p l ih =>
      by_cases hp : p.1 = k
      · have hpc : ¬ p.1 = c := by rw [hp]; exact fun hh => hck hh.symm
        rw [List.map_cons, if_pos hp,
          List.find?_cons_of_neg _ (by simp; exact fun hh => hck hh.symm),
          List.find?_cons_of_neg _ (by simpa using hpc), ih]
      · rw [List.map_cons, if_neg hp]
        by_cases hpc : p.1 = c
        · rw [List.find?_cons_of_pos _ (by simpa using hpc),
            List.find?_cons_of_pos _ (by simpa using hpc)]
        · rw [List.find?_cons_of_neg _ (by simpa using hpc),
            List.find?_cons_of_neg _ (by simpa using hpc), ih]

theorem dictGet_dictSet_self {α : Type} (l : List (Int × α)) (k : Int) (v : α) :
    dictGet (dictSet l k v) k = some v := by
  unfold dictSet dictGet
  by_cases h : l.any (fun p => p.1 = k)
  · rw [if_pos h, find?_map_dictSet, if_pos h]
    rfl
  · rw [if_neg h, List.find?_append, find?_of_not_any k l h]
    rw [List.find?_cons_of_pos _ (by simp)]
    rfl

theorem dictGet_dictSet_ne {α : Type} (l : List (Int × α)) (k c : Int) (v : α)
    (hck : c ≠ k) : dictGet (dictSet l k v) c = dictGet l c := by
  unfold dictSet dictGet
  by_cases h : l.any (fun p => p.1 = k)
  · rw [if_pos h]
    congr 1
    exact find?_map_preserve k c v hck l
  · rw [if_neg h]
    congr 1
    rw [List.find?_append]
    cases hfind : l.find? (fun p => p.1 = c) with
    | some q => simp
    | none =>
        simp only [Option.none_or]
        rw [List.find?_cons_of_neg _ (by simp; exact fun hh => hck hh.symm)]
        rfl

theorem dictGetD_dictSet_self {α : Type} (l : List (Int × α)) (k : Int) (v d : α) :
    dictGetD (dictSet l k v) k d = v := by
  unfold dictGetD
  rw [dictGet_dictSet_self]
  rfl

theorem dictGetD_dictSet_ne {α : Type} (l : List (Int × α)) (k c : Int) (v d : α)
    (hck : c ≠ k) : dictGetD (dictSet l k v) c d = dictGetD l c d := by
  unfold dictGetD
  rw [dictGet_dictSet_ne _ _ _ _ hck]

theorem mem_keys_any {α : Type} (l : List (Int × α)) (k : Int) :
    k ∈ l.map Prod.fst ↔ l.any (fun p => p.1 = k) = true := by
  induction l with
  | nil => simp
  | cons p l ih =>
      simp only [List.map_cons, List.mem_cons, List.any_cons, Bool.or_eq_true,
        decide_eq_true_eq, ih]
      constructor
      · rintro (h | h)
        · exact Or.inl h.symm
        · exact Or.inr h
      · rintro (h | h)
        · exact Or.inl h.symm
        · exact Or.inr h

theorem dictSet_keys {α : Type} (l : List (Int × α)) (k : Int) (v : α)
    (hk : k ∈ l.map Prod.fst) : (dictSet l k v).map Prod.fst = l.map Prod.fst := by
  unfold dictSet
  rw [if_pos ((mem_keys_any l k).mp hk)]
  rw [List.map_map]
  apply List.map_congr_left
  intro p _
  by_cases hp : p.1 = k
  · simp [hp]
  · simp [hp]

theorem dictGet_map_values {α β : Type} (f : α → β) (k : Int) :
    ∀ l : List (Int × α),
      dictGet (l.map (fun p => (p.1, f p.2))) k = (dictGet l k).map f := by
  intro l
  induction l with
  | nil => rfl
  | cons p l ih =>
      unfold dictGet
      by_cases hp : p.1 = k
      · rw [List.map_cons, List.find?_cons_of_pos _ (by simpa using hp),
          List.find?_cons_of_pos _ (by simpa using hp)]
        rfl
      · rw [List.map_cons, List.find?_cons_of_neg _ (by simpa using hp),
          List.find?_cons_of_neg _ (by simpa using hp)]
        exact ih

theorem sweep_eq_map_values (l : List (Int × Int)) (a b : Int) :
    sweep_reverse_map l a b = l.map (fun p => (p.1, if p.2 = a then b else p.2)) := by
  unfold sweep_reverse_map
  apply List.map_congr_left
  intro p _
  by_cases hp : p.2 = a
  · simp [hp]
  · simp [hp]

theorem dictGet_sweep (l : List (Int × Int)) (a b k : Int) :
    dictGet (sweep_reverse_map l a b) k =
      (dictGet l k).map (fun v => if v = a then b else v) := by
  rw [sweep_eq_map_values]
  exact dictGet_map_values (fun v => if v = a then b else v) k l

theorem sweep_keys (l : List (Int × Int)) (a b : Int) :
    (sweep_reverse_map l a b).map Prod.fst = l.map Prod.fst := by
  rw [sweep_eq_map_values, List.map_map]
  rfl

theorem mem_of_dictGet {α : Type} {l : List (Int × α)} {k : Int} {v : α}
    (h : dictGet l k = some v) : (k, v) ∈ l := by
  unfold dictGet at h
  cases hf : l.find? (fun p => p.1 = k) with
  | none => rw [hf] at h; exact Option.noConfusion h
  | some q =>
      rw [hf] at h
      have hq : q ∈ l := List.mem_of_find?_eq_some hf
      have hqk : q.1 = k := by simpa using List.find?_some hf
      have hv : q.2 = v := by simpa using h
      have : (k, v) = q := by
        rw [← hqk, ← hv]
      rw [this]
      exact hq

theorem dictGet_none {α : Type} {l : List (Int × α)} {k : Int}
    (h : k ∉ l.map Prod.fst) : dictGet l k = none := by
  unfold dictGet
  rw [find?_of_not_any k l (fun ha => h ((mem_keys_any l k).mpr ha))]
  rfl

theorem dictGet_eq_some {α : Type} {l : List (Int × α)} {k : Int} (d : α)
    (h : k ∈ l.map Prod.fst) : dictGet l k = some (dictGetD l k d) := by
  cases hg : dictGet l k with
  | some v => rw [dictGetD, hg]; rfl
  | none =>
      exfalso
      unfold dictGet at hg
      cases hf : l.find? (fun p => p.1 = k) with
      | some q => rw [hf] at hg; exact Option.noConfusion hg
      | none =>
          obtain ⟨p, hp, hpk⟩ := List.mem_map.mp h
          have := List.find?_eq_none.mp hf p hp
          simp [hpk] at this

theorem dictGet_of_mem_nodup {α : Type} :
    ∀ (l : List (Int × α)) (k : Int) (v : α), (k, v) ∈ l →
      (l.map Prod.fst).Nodup → dictGet l k = some v := by
  intro l
  induction l with
  | nil => intro k v h; cases h
  | cons p l ih =>
      intro k v h hnd
      rcases List.mem_cons.mp h with h1 | h1
      · rw [← h1]
        unfold dictGet
        rw [List.find?_cons_of_pos _ (by simp)]
        rfl
      · have hk : k ∈ l.map Prod.fst :=
          List.mem_map.mpr ⟨(k, v), h1, rfl⟩
        have hpk : ¬ p.1 = k := by
          intro hh
          rw [List.map_cons] at hnd
          exact (List.nodup_cons.mp hnd).1 (hh ▸ hk)
        unfold dictGet
        rw [List.find?_cons_of_neg _ (by simpa using hpk)]
        exact ih k v h1 (by rw [List.map_cons] at hnd; exact (List.nodup_cons.mp hnd).2)

theorem assoc_ext {α : Type} :
    ∀ (l1 l2 : List (Int × α)), l1.map Prod.fst = l2.map Prod.fst →
      (l1.map Prod.fst).Nodup → (∀ k, dictGet l1 k = dictGet l2 k) → l1 = l2 := by
  intro l1
  induction l1 with
  | nil =>
      intro l2 hk _ _
      cases l2 with
      | nil => rfl
      | cons q l2 => exact absurd hk (by simp)
  | cons p l1 ih =>
      intro l2 hk hnd hget
      cases l2 with
      | nil => exact absurd hk (by simp)
      | cons q l2 =>
          simp only [List.map_cons, List.cons.injEq] at hk
          have hq1 : q.1 = p.1 := hk.1.symm
          have hv : p.2 = q.2 := by
            have h1 := hget p.1
            unfold dictGet at h1
            rw [List.find?_cons_of_pos _ (by simp),
              List.find?_cons_of_pos _ (by simp [hq1])] at h1
            simpa using h1
          have hpq : p = q := by
            have : (p.1, p.2) = (q.1, q.2) := by rw [hq1, hv]
            simpa using this
          rw [hpq]
          congr 1
          rw [List.map_cons] at hnd
          apply ih l2 hk.2 (List.nodup_cons.mp hnd).2
          intro k
          by_cases hkp : k = p.1
          · subst hkp
            rw [dictGet_none, dictGet_none]
            · rw [← hk.2]; exact (List.nodup_cons.mp hnd).1
            · exact (List.nodup_cons.mp hnd).1
          · have h1 := hget k
            unfold dictGet at h1 ⊢
            rw [List.find?_cons_of_neg _ (by simpa using fun hh : p.1 = k => hkp hh.symm),
              List.find?_cons_of_neg _
                (by simpa using fun hh : q.1 = k => hkp (hq1 ▸ hh).symm)] at h1
            exact h1

theorem values_ge_of_getD (l : List (Int × Int))
    (hnd : (l.map Prod.fst).Nodup)
    (h : ∀ c : Int, -1 ≤ dictGetD l c (-1)) :
    ∀ v ∈ l.map Prod.snd, -1 ≤ v := by
  intro v hv
  obtain ⟨p, hp, hpv⟩ := List.mem_map.mp hv
  have hg : dictGet l p.1 = some p.2 := dictGet_of_mem_nodup l p.1 p.2 (by simpa using hp) hnd
  have := h p.1
  rw [dictGetD, hg] at this
  rw [← hpv]
  exact this

theorem foldl_rel {β γ : Type} (R : β → β → Prop) (f : β → γ → β) :
    ∀ (L : List γ) (b1 b2 : β), R b1 b2 →
      (∀ x ∈ L, ∀ a1 a2, R a1 a2 → R (f a1 x) (f a2 x)) →
      R (L.foldl f b1) (L.foldl f b2) := by
  intro L
  induction L with
  | nil => intro b1 b2 hb _; exact hb
  | cons x L ih =>
      intro b1 b2 hb hstep
      exact ih (f b1 x) (f b2 x) (hstep x (List.mem_cons_self x L) b1 b2 hb)
        (fun y hy => hstep y (List.mem_cons_of_mem x hy))

/-! ### Seeding-phase lemmas for the `_build_groups` idempotence proof -/

theorem seed_s_facts (pk : ℚ) (keys0 : List Int) :
    ∀ (din : List (Int × ℚ)) (rs : List (Int × Int)) (g : Int),
      0 ≤ g →
      rs.map Prod.fst = keys0 →
      (∀ p ∈ din, p.1 ∈ keys0) →
      (∀ c : Int, -1 ≤ dictGetD rs c (-1)) →
      ((din.foldl
          (fun acc p => if pk ≤ p.2 then (dictSet acc.1 p.1 acc.2, acc.2 + 1) else acc)
          (rs, g)).1.map Prod.fst = keys0 ∧
        (∀ c : Int, -1 ≤ dictGetD
          (din.foldl
            (fun acc p => if pk ≤ p.2 then (dictSet acc.1 p.1 acc.2, acc.2 + 1) else acc)
            (rs, g)).1 c (-1)) ∧
        (∀ p ∈ din, pk ≤ p.2 → dictGetD
          (din.foldl
            (fun acc p => if pk ≤ p.2 then (dictSet acc.1 p.1 acc.2, acc.2 + 1) else acc)
            (rs, g)).1 p.1 (-1) ≠ -1) ∧
        (∀ c : Int, dictGetD rs c (-1) ≠ -1 → dictGetD
          (din.foldl
            (fun acc p => if pk ≤ p.2 then (dictSet acc.1 p.1 acc.2, acc.2 + 1) else acc)
            (rs, g)).1 c (-1) ≠ -1)) := by
  intro din
  induction din with
  | nil =>
      intro rs g hg hk _ hge
      exact ⟨hk, hge, fun p hp => absurd hp (by simp), fun c hc => hc⟩
  | cons p din ih =>
      intro rs g hg hk hpk hge
      by_cases hp : pk ≤ p.2
      · have hstep : (p :: din).foldl
            (fun acc q => if pk ≤ q.2 then (dictSet acc.1 q.1 acc.2, acc.2 + 1) else acc)
            (rs, g) =
            din.foldl
              (fun acc q => if pk ≤ q.2 then (dictSet acc.1 q.1 acc.2, acc.2 + 1) else acc)
              (dictSet rs p.1 g, g + 1) := by
          rw [List.foldl_cons, if_pos hp]
        have hkeys2 : (dictSet rs p.1 g).map Prod.fst = keys0 := by
          rw [dictSet_keys _ _ _ (by rw [hk]; exact hpk p (List.mem_cons_self p din))]
          exact hk
        have hge2 : ∀ c : Int, -1 ≤ dictGetD (dictSet rs p.1 g) c (-1) := by
          intro c
          by_cases hc : c = p.1
          · subst hc
            rw [dictGetD_dictSet_self]
            omega
          · rw [dictGetD_dictSet_ne _ _ _ _ _ hc]
            exact hge c
        obtain ⟨o1, o2, o3, o4⟩ := ih (dictSet rs p.1 g) (g + 1) (by omega) hkeys2
          (fun q hq => hpk q (List.mem_cons_of_mem p hq)) hge2
        rw [hstep]
        refine ⟨o1, o2, ?_, ?_⟩
        · intro q hq hqpk
          rcases List.mem_cons.mp hq with h1 | h1
          · apply o4
            rw [← h1, dictGetD_dictSet_self]
            omega
          · exact o3 q h1 hqpk
        · intro c hc
          apply o4
          by_cases hcp : c = p.1
          · subst hcp
            rw [dictGetD_dictSet_self]
            omega
          · rw [dictGetD_dictSet_ne _ _ _ _ _ hcp]
            exact hc
      · have hstep : (p :: din).foldl
            (fun acc q => if pk ≤ q.2 then (dictSet acc.1 q.1 acc.2, acc.2 + 1) else acc)
            (rs, g) =
            din.foldl
              (fun acc q => if pk ≤ q.2 then (dictSet acc.1 q.1 acc.2, acc.2 + 1) else acc)
              (rs, g) := by
          rw [List.foldl_cons, if_neg hp]
        obtain ⟨o1, o2, o3, o4⟩ := ih rs g hg hk
          (fun q hq => hpk q (List.mem_cons_of_mem p hq)) hge
        rw [hstep]
        refine ⟨o1, o2, ?_, o4⟩
        intro q hq hqpk
        rcases List.mem_cons.mp hq with h1 | h1
        · exact absurd (h1 ▸ hqpk) hp
        · exact o3 q h1 hqpk

theorem seed_par (pk : ℚ) (pre1 : List (Int × Int)) (keys0 : List Int) :
    ∀ (din : List (Int × ℚ)) (rs rt : List (Int × Int)) (g : Int),
      0 ≤ g →
      rs.map Prod.fst = keys0 →
      rt.map Prod.fst = keys0 →
      (∀ p ∈ din, p.1 ∈ keys0) →
      (∀ c : Int,
        (dictGetD rs c (-1) ≠ -1 → dictGetD rt c (-1) = dictGetD rs c (-1)) ∧
        (dictGetD rs c (-1) = -1 → dictGetD pre1 c (-1) = -1 →
          dictGetD rt c (-1) = -1)) →
      ((din.foldl
          (fun acc p => if pk ≤ p.2 then (dictSet acc.1 p.1 acc.2, acc.2 + 1) else acc)
          (rt, g)).2 =
        (din.foldl
          (fun acc p => if pk ≤ p.2 then (dictSet acc.1 p.1 acc.2, acc.2 + 1) else acc)
          (rs, g)).2 ∧
        (din.foldl
          (fun acc p => if pk ≤ p.2 then (dictSet acc.1 p.1 acc.2, acc.2 + 1) else acc)
          (rt, g)).1.map Prod.fst = keys0 ∧
        (∀ c : Int,
          (dictGetD (din.foldl
              (fun acc p => if pk ≤ p.2 then (dictSet acc.1 p.1 acc.2, acc.2 + 1) else acc)
              (rs, g)).1 c (-1) ≠ -1 →
            dictGetD (din.foldl
              (fun acc p => if pk ≤ p.2 then (dictSet acc.1 p.1 acc.2, acc.2 + 1) else acc)
              (rt, g)).1 c (-1) =
            dictGetD (din.foldl
              (fun acc p => if pk ≤ p.2 then (dictSet acc.1 p.1 acc.2, acc.2 + 1) else acc)
              (rs, g)).1 c (-1)) ∧
          (dictGetD (din.foldl
              (fun acc p => if pk ≤ p.2 then (dictSet acc.1 p.1 acc.2, acc.2 + 1) else acc)
              (rs, g)).1 c (-1) = -1 → dictGetD pre1 c (-1) = -1 →
            dictGetD (din.foldl
              (fun acc p => if pk ≤ p.2 then (dictSet acc.1 p.1 acc.2, acc.2 + 1) else acc)
              (rt, g)).1 c (-1) = -1))) := by
  intro din
  induction din with
  | nil =>
      intro rs rt g _ _ hkt _ hAB
      exact ⟨rfl, hkt, hAB⟩
  | cons p din ih =>
      intro rs rt g hg hks hkt hpk hAB
      by_cases hp : pk ≤ p.2
      · have hstep : ∀ r : List (Int × Int), (p :: din).foldl
            (fun acc q => if pk ≤ q.2 then (dictSet acc.1 q.1 acc.2, acc.2 + 1) else acc)
            (r, g) =
            din.foldl
              (fun acc q => if pk ≤ q.2 then (dictSet acc.1 q.1 acc.2, acc.2 + 1) else acc)
              (dictSet r p.1 g, g + 1) := by
          intro r
          rw [List.foldl_cons, if_pos hp]
        rw [hstep rs, hstep rt]
        apply ih
        · omega
        · rw [dictSet_keys _ _ _ (by rw [hks]; exact hpk p (List.mem_cons_self p din))]
          exact hks
        · rw [dictSet_keys _ _ _ (by rw [hkt]; exact hpk p (List.mem_cons_self p din))]
          exact hkt
        · exact fun q hq => hpk q (List.mem_cons_of_mem p hq)
        · intro c
          by_cases hcp : c = p.1
          · subst hcp
            constructor
            · intro _
              rw [dictGetD_dictSet_self, dictGetD_dictSet_self]
            · intro hc
              rw [dictGetD_dictSet_self] at hc
              omega
          · rw [dictGetD_dictSet_ne _ _ _ _ _ hcp, dictGetD_dictSet_ne _ _ _ _ _ hcp]
            exact hAB c
      · have hstep : ∀ r : List (Int × Int), (p :: din).foldl
            (fun acc q => if pk ≤ q.2 then (dictSet acc.1 q.1 acc.2, acc.2 + 1) else acc)
            (r, g) =
            din.foldl
              (fun acc q => if pk ≤ q.2 then (dictSet acc.1 q.1 acc.2, acc.2 + 1) else acc)
              (r, g) := by
          intro r
          rw [List.foldl_cons, if_neg hp]
        rw [hstep rs, hstep rt]
        exact ih rs rt g hg hks hkt (fun q hq => hpk q (List.mem_cons_of_mem p hq)) hAB

/-! ### Link-processing lemmas for the `_build_groups` idempotence proof -/

theorem dictGetD_sweep_ne (l : List (Int × Int)) (a b c : Int) (ha : a ≠ -1) :
    dictGetD (sweep_reverse_map l a b) c (-1) =
      if dictGetD l c (-1) = a then b else dictGetD l c (-1) := by
  unfold dictGetD
  rw [dictGet_sweep]
  cases hg : dictGet l c with
  | none =>
      show (-1 : Int) = if (-1 : Int) = a then b else (-1 : Int)
      rw [if_neg (fun hh : (-1 : Int) = a => ha hh.symm)]
  | some v => rfl

theorem link_step_eq (pk sd : ℚ) (din : List (Int × ℚ)) (ch : Int)
    (s : BGState) (pr : Int × ℚ) :
    link_step pk sd din ch s pr =
      (if dictGetD din ch 0 < pk ∧ dictGetD din pr.1 0 < pk then
        { s with g_high := s.g_high ++ [ch], g_low := s.g_low ++ [pr.1],
                 g_dens := s.g_dens ++ [pr.2] }
      else if pk ≤ dictGetD din ch 0 ∧ pk ≤ dictGetD din pr.1 0 then
        if pr.2 < sd then s
        else
          { s with reverse_map :=
              (sweep_reverse_map s.reverse_map (dictGetD s.reverse_map pr.1 (-1))
                (dictGetD s.reverse_map ch (-1))) }
      else
        if dictGetD s.densestbound pr.1 (-1) < pr.2 then
          { s with densestbound := dictSet s.densestbound pr.1 pr.2,
                   reverse_map := dictSet s.reverse_map pr.1
                     (dictGetD s.reverse_map ch (-1)) }
        else s) := rfl

/-- A chain with densest-member density at or above `peakthresh` has an
assigned group in any `bgGood` state. -/
theorem peak_written (pk : ℚ) (din : List (Int × ℚ)) (keys0 : List Int)
    (s : BGState) (hgood : bgGood pk din keys0 s) (x : Int)
    (hxk : x ∈ din.map Prod.fst) (hpk2 : pk ≤ dictGetD din x 0) :
    dictGetD s.reverse_map x (-1) ≠ -1 := by
  have hx : dictGet din x = some (dictGetD din x 0) := dictGet_eq_some 0 hxk
  exact hgood.2.2.2.2.1 (x, dictGetD din x 0) (mem_of_dictGet hx) hpk2

theorem link_step_sim (pk sd : ℚ) (din : List (Int × ℚ)) (pre1 : List (Int × Int))
    (keys0 : List Int) (ch : Int) (pr : Int × ℚ)
    (hord : dictGetD din pr.1 0 ≤ dictGetD din ch 0)
    (hchk : ch ∈ din.map Prod.fst)
    (hlk : pr.1 ∈ din.map Prod.fst)
    (hdk : ∀ p ∈ din, p.1 ∈ keys0)
    (s t : BGState)
    (hcoup : bgCoupled pre1 s t) (hgood : bgGood pk din keys0 s) :
    bgCoupled pre1 (link_step pk sd din ch s pr) (link_step pk sd din ch t pr) ∧
    bgGood pk din keys0 (link_step pk sd din ch s pr) := by
  obtain ⟨hdb, hgh, hgl, hgd, hkmap, hAB⟩ := hcoup
  obtain ⟨hkeys, hglk, hge, hdbw, hpkw, hdbge⟩ := hgood
  have hgood2 : bgGood pk din keys0 s := ⟨hkeys, hglk, hge, hdbw, hpkw, hdbge⟩
  have hlk0 : pr.1 ∈ keys0 := by
    obtain ⟨p, hp, hpeq⟩ := List.mem_map.mp hlk
    exact hpeq ▸ hdk p hp
  rw [link_step_eq, link_step_eq]
  by_cases h1 : dictGetD din ch 0 < pk ∧ dictGetD din pr.1 0 < pk
  · rw [if_pos h1, if_pos h1]
    refine ⟨⟨hdb, ?_, ?_, ?_, hkmap, hAB⟩, hkeys, ?_, hge, hdbw, hpkw, hdbge⟩
    · show t.g_high ++ [ch] = s.g_high ++ [ch]
      rw [hgh]
    · show t.g_low ++ [pr.1] = s.g_low ++ [pr.1]
      rw [hgl]
    · show t.g_dens ++ [pr.2] = s.g_dens ++ [pr.2]
      rw [hgd]
    · intro x hx
      rcases List.mem_append.mp hx with hx | hx
      · exact hglk x hx
      · rw [List.mem_singleton.mp hx]
        exact hlk0
  · rw [if_neg h1, if_neg h1]
    by_cases h2 : pk ≤ dictGetD din ch 0 ∧ pk ≤ dictGetD din pr.1 0
    · rw [if_pos h2, if_pos h2]
      by_cases h3 : pr.2 < sd
      · rw [if_pos h3, if_pos h3]
        exact ⟨⟨hdb, hgh, hgl, hgd, hkmap, hAB⟩, hgood2⟩
      · rw [if_neg h3, if_neg h3]
        have hghne : dictGetD s.reverse_map ch (-1) ≠ -1 :=
          peak_written pk din keys0 s hgood2 ch hchk h2.1
        have hglne : dictGetD s.reverse_map pr.1 (-1) ≠ -1 :=
          peak_written pk din keys0 s hgood2 pr.1 hlk h2.2
        have hth : dictGetD t.reverse_map ch (-1) = dictGetD s.reverse_map ch (-1) :=
          (hAB ch).1 hghne
        have htl : dictGetD t.reverse_map pr.1 (-1) = dictGetD s.reverse_map pr.1 (-1) :=
          (hAB pr.1).1 hglne
        rw [htl, hth]
        set gl := dictGetD s.reverse_map pr.1 (-1) with hgldef
        set gh := dictGetD s.reverse_map ch (-1) with hghdef
        have hs := fun c => dictGetD_sweep_ne s.reverse_map gl gh c hglne
        have ht2 := fun c => dictGetD_sweep_ne t.reverse_map gl gh c hglne
        refine ⟨⟨hdb, hgh, hgl, hgd, ?_, ?_⟩, ?_, hglk, ?_, ?_, ?_, hdbge⟩
        · show (sweep_reverse_map t.reverse_map gl gh).map Prod.fst =
            (sweep_reverse_map s.reverse_map gl gh).map Prod.fst
          rw [sweep_keys, sweep_keys, hkmap]
        · intro c
          dsimp only
          rw [hs c, ht2 c]
          constructor
          · intro hne
            by_cases hc : dictGetD s.reverse_map c (-1) = gl
            · rw [if_pos hc] at hne ⊢
              have hcne : dictGetD s.reverse_map c (-1) ≠ -1 := by
                rw [hc]; exact hglne
              rw [(hAB c).1 hcne, if_pos hc]
            · rw [if_neg hc] at hne ⊢
              rw [(hAB c).1 hne, if_neg hc]
          · intro hz hpre
            by_cases hc : dictGetD s.reverse_map c (-1) = gl
            · rw [if_pos hc] at hz
              exact absurd hz hghne
            · rw [if_neg hc] at hz
              rw [(hAB c).2 hz hpre,
                if_neg (fun hh : (-1 : Int) = gl => hglne hh.symm)]
        · show (sweep_reverse_map s.reverse_map gl gh).map Prod.fst = keys0
          rw [sweep_keys]
          exact hkeys
        · intro c
          dsimp only
          rw [hs c]
          by_cases hc : dictGetD s.reverse_map c (-1) = gl
          · rw [if_pos hc]
            exact hge ch
          · rw [if_neg hc]
            exact hge c
        · intro c hdbc
          dsimp only at hdbc ⊢
          rw [hs c]
          by_cases hc : dictGetD s.reverse_map c (-1) = gl
          · rw [if_pos hc]
            exact hghne
          · rw [if_neg hc]
            exact hdbw c hdbc
        · intro p hp hppk
          dsimp only
          rw [hs p.1]
          by_cases hc : dictGetD s.reverse_map p.1 (-1) = gl
          · rw [if_pos hc]
            exact hghne
          · rw [if_neg hc]
            exact hpkw p hp hppk
    · rw [if_neg h2, if_neg h2]
      have hchpk : pk ≤ dictGetD din ch 0 := by
        by_cases hl : pk ≤ dictGetD din pr.1 0
        · exact le_trans hl hord
        · rcases not_and_or.mp h1 with hh | hh
          · exact le_of_not_lt hh
          · exact absurd (lt_of_not_le hl) (by intro _; exact hh (lt_of_not_le hl))
      have hghne : dictGetD s.reverse_map ch (-1) ≠ -1 :=
        peak_written pk din keys0 s hgood2 ch hchk hchpk
      have hth : dictGetD t.reverse_map ch (-1) = dictGetD s.reverse_map ch (-1) :=
        (hAB ch).1 hghne
      rw [hdb, hth]
      by_cases h4 : dictGetD s.densestbound pr.1 (-1) < pr.2
      · rw [if_pos h4, if_pos h4]
        refine ⟨⟨rfl, hgh, hgl, hgd, ?_, ?_⟩, ?_, hglk, ?_, ?_, ?_, ?_⟩
        · show (dictSet t.reverse_map pr.1 _).map Prod.fst =
            (dictSet s.reverse_map pr.1 _).map Prod.fst
          rw [dictSet_keys _ _ _ (by rw [hkmap, hkeys]; exact hlk0),
            dictSet_keys _ _ _ (by rw [hkeys]; exact hlk0), hkmap]
        · intro c
          dsimp only
          by_cases hc : c = pr.1
          · subst hc
            rw [dictGetD_dictSet_self, dictGetD_dictSet_self]
            exact ⟨fun _ => rfl, fun hz _ => absurd hz hghne⟩
          · rw [dictGetD_dictSet_ne _ _ _ _ _ hc, dictGetD_dictSet_ne _ _ _ _ _ hc]
            exact hAB c
        · show (dictSet s.reverse_map pr.1 _).map Prod.fst = keys0
          rw [dictSet_keys _ _ _ (by rw [hkeys]; exact hlk0)]
          exact hkeys
        · intro c
          dsimp only
          by_cases hc : c = pr.1
          · subst hc
            rw [dictGetD_dictSet_self]
            exact hge ch
          · rw [dictGetD_dictSet_ne _ _ _ _ _ hc]
            exact hge c
        · intro c hdbc
          dsimp only at hdbc ⊢
          by_cases hc : c = pr.1
          · subst hc
            rw [dictGetD_dictSet_self]
            exact hghne
          · rw [dictGetD_dictSet_ne _ _ _ _ _ hc]
            apply hdbw
            rw [dictGetD_dictSet_ne _ _ _ _ _ hc] at hdbc
            exact hdbc
        · intro p hp hppk
          dsimp only
          by_cases hc : p.1 = pr.1
          · rw [hc, dictGetD_dictSet_self]
            exact hghne
          · rw [dictGetD_dictSet_ne _ _ _ _ _ hc]
            exact hpkw p hp hppk
        · intro c
          dsimp only
          by_cases hc : c = pr.1
          · subst hc
            rw [dictGetD_dictSet_self]
            exact le_of_lt (lt_of_le_of_lt (hdbge pr.1) h4)
          · rw [dictGetD_dictSet_ne _ _ _ _ _ hc]
            exact hdbge c
      · rw [if_neg h4, if_neg h4]
        exact ⟨⟨hdb, hgh, hgl, hgd, hkmap, hAB⟩, hgood2⟩

theorem bgCoupled_refl (pre1 : List (Int × Int)) (s : BGState) :
    bgCoupled pre1 s s :=
  ⟨rfl, rfl, rfl, rfl, rfl, fun _ => ⟨fun _ => rfl, fun h _ => h⟩⟩

theorem main_links_sim (pk sd : ℚ) (din : List (Int × ℚ)) (pre1 : List (Int × Int))
    (keys0 : List Int) (cdn : List (Int × List (Int × ℚ)))
    (hord : ∀ hp ∈ cdn, ∀ pr ∈ hp.2, dictGetD din pr.1 0 ≤ dictGetD din hp.1 0)
    (hch : ∀ hp ∈ cdn, hp.1 ∈ din.map Prod.fst)
    (hcl : ∀ hp ∈ cdn, ∀ pr ∈ hp.2, pr.1 ∈ din.map Prod.fst)
    (hdk : ∀ p ∈ din, p.1 ∈ keys0)
    (s t : BGState) (hcoup : bgCoupled pre1 s t) (hgood : bgGood pk din keys0 s) :
    bgCoupled pre1 (main_links pk sd din cdn s) (main_links pk sd din cdn t) ∧
    bgGood pk din keys0 (main_links pk sd din cdn s) := by
  unfold main_links
  refine foldl_rel
    (fun a1 a2 => bgCoupled pre1 a1 a2 ∧ bgGood pk din keys0 a1) _ cdn s t
    ⟨hcoup, hgood⟩ ?_
  intro hp hhp a1 a2 ha
  refine foldl_rel
    (fun b1 b2 => bgCoupled pre1 b1 b2 ∧ bgGood pk din keys0 b1) _ hp.2 a1 a2 ha ?_
  intro pr hpr b1 b2 hb
  exact link_step_sim pk sd din pre1 keys0 hp.1 pr
    (hord hp hhp pr hpr) (hch hp hhp) (hcl hp hhp pr hpr) hdk b1 b2 hb.1 hb.2

theorem fringe_step_eq (sc : BGState × Nat) (e : (Int × Int) × ℚ) :
    fringe_step sc e =
      (if dictGetD sc.1.densestbound e.1.2 (-1) < e.2 ∧
          dictGetD sc.1.densestbound e.1.2 (-1) <
            dictGetD sc.1.densestbound e.1.1 (-1) then
        ({ sc.1 with
            densestbound := dictSet sc.1.densestbound e.1.2
              (if e.2 < dictGetD sc.1.densestbound e.1.1 (-1) then e.2
               else dictGetD sc.1.densestbound e.1.1 (-1)),
            reverse_map := dictSet sc.1.reverse_map e.1.2
              (dictGetD sc.1.reverse_map e.1.1 (-1)) },
         sc.2 + 1)
      else sc) := rfl

theorem fringe_step_sim (pk : ℚ) (din : List (Int × ℚ)) (pre1 : List (Int × Int))
    (keys0 : List Int) (e : (Int × Int) × ℚ) (helow : e.1.2 ∈ keys0)
    (sc tc : BGState × Nat)
    (hn : tc.2 = sc.2) (hcoup : bgCoupled pre1 sc.1 tc.1)
    (hgood : bgGood pk din keys0 sc.1) :
    (fringe_step tc e).2 = (fringe_step sc e).2 ∧
    bgCoupled pre1 (fringe_step sc e).1 (fringe_step tc e).1 ∧
    bgGood pk din keys0 (fringe_step sc e).1 := by
  obtain ⟨hdb, hgh, hgl, hgd, hkmap, hAB⟩ := hcoup
  obtain ⟨hkeys, hglk, hge, hdbw, hpkw, hdbge⟩ := hgood
  have hgood2 : bgGood pk din keys0 sc.1 := ⟨hkeys, hglk, hge, hdbw, hpkw, hdbge⟩
  rw [fringe_step_eq, fringe_step_eq, hdb]
  by_cases h1 : dictGetD sc.1.densestbound e.1.2 (-1) < e.2 ∧
      dictGetD sc.1.densestbound e.1.2 (-1) < dictGetD sc.1.densestbound e.1.1 (-1)
  · rw [if_pos h1, if_pos h1]
    have hhigh : dictGetD sc.1.reverse_map e.1.1 (-1) ≠ -1 := by
      apply hdbw
      exact lt_of_le_of_lt (hdbge e.1.2) h1.2
    have hth : dictGetD tc.1.reverse_map e.1.1 (-1) =
        dictGetD sc.1.reverse_map e.1.1 (-1) := (hAB e.1.1).1 hhigh
    rw [hth]
    refine ⟨?_, ⟨rfl, hgh, hgl, hgd, ?_, ?_⟩, ?_, hglk, ?_, ?_, ?_, ?_⟩
    · show tc.2 + 1 = sc.2 + 1
      rw [hn]
    · show (dictSet tc.1.reverse_map e.1.2 _).map Prod.fst =
        (dictSet sc.1.reverse_map e.1.2 _).map Prod.fst
      rw [dictSet_keys _ _ _ (by rw [hkmap, hkeys]; exact helow),
        dictSet_keys _ _ _ (by rw [hkeys]; exact helow), hkmap]
    · intro c
      dsimp only
      by_cases hc : c = e.1.2
      · subst hc
        rw [dictGetD_dictSet_self, dictGetD_dictSet_self]
        exact ⟨fun _ => rfl, fun hz _ => absurd hz hhigh⟩
      · rw [dictGetD_dictSet_ne _ _ _ _ _ hc, dictGetD_dictSet_ne _ _ _ _ _ hc]
        exact hAB c
    · show (dictSet sc.1.reverse_map e.1.2 _).map Prod.fst = keys0
      rw [dictSet_keys _ _ _ (by rw [hkeys]; exact helow)]
      exact hkeys
    · intro c
      dsimp only
      by_cases hc : c = e.1.2
      · subst hc
        rw [dictGetD_dictSet_self]
        exact hge e.1.1
      · rw [dictGetD_dictSet_ne _ _ _ _ _ hc]
        exact hge c
    · intro c hdbc
      dsimp only at hdbc ⊢
      by_cases hc : c = e.1.2
      · subst hc
        rw [dictGetD_dictSet_self]
        exact hhigh
      · rw [dictGetD_dictSet_ne _ _ _ _ _ hc]
        apply hdbw
        rw [dictGetD_dictSet_ne _ _ _ _ _ hc] at hdbc
        exact hdbc
    · intro p hp hppk
      dsimp only
      by_cases hc : p.1 = e.1.2
      · rw [hc, dictGetD_dictSet_self]
        exact hhigh
      · rw [dictGetD_dictSet_ne _ _ _ _ _ hc]
        exact hpkw p hp hppk
    · intro c
      dsimp only
      by_cases hc : c = e.1.2
      · subst hc
        rw [dictGetD_dictSet_self]
        by_cases hw : e.2 < dictGetD sc.1.densestbound e.1.1 (-1)
        · rw [if_pos hw]
          exact le_of_lt (lt_of_le_of_lt (hdbge e.1.2) h1.1)
        · rw [if_neg hw]
          exact hdbge e.1.1
      · rw [dictGetD_dictSet_ne _ _ _ _ _ hc]
        exact hdbge c
  · rw [if_neg h1, if_neg h1]
    exact ⟨hn, ⟨hdb, hgh, hgl, hgd, hkmap, hAB⟩, hgood2⟩

theorem fringe_pass_sim (pk : ℚ) (din : List (Int × ℚ)) (pre1 : List (Int × Int))
    (keys0 : List Int) (s t : BGState)
    (hcoup : bgCoupled pre1 s t) (hgood : bgGood pk din keys0 s) :
    (fringe_pass t).2 = (fringe_pass s).2 ∧
    bgCoupled pre1 (fringe_pass s).1 (fringe_pass t).1 ∧
    bgGood pk din keys0 (fringe_pass s).1 := by
  obtain ⟨hdb, hgh, hgl, hgd, hkmap, hAB⟩ := hcoup
  have hlist : (t.g_high.zip t.g_low).zip t.g_dens =
      (s.g_high.zip s.g_low).zip s.g_dens := by
    rw [hgh, hgl, hgd]
  unfold fringe_pass
  rw [hlist]
  have hfold := foldl_rel
    (fun (a1 a2 : BGState × Nat) => a2.2 = a1.2 ∧ bgCoupled pre1 a1.1 a2.1 ∧
      bgGood pk din keys0 a1.1)
    fringe_step ((s.g_high.zip s.g_low).zip s.g_dens) (s, 0) (t, 0)
    ⟨rfl, ⟨hdb, hgh, hgl, hgd, hkmap, hAB⟩, hgood⟩
    (by
      intro e he a1 a2 ha
      have helow : e.1.2 ∈ keys0 := by
        obtain ⟨⟨a, b⟩, d⟩ := e
        exact hgood.2.1 b (List.of_mem_zip (List.of_mem_zip he).1).2
      have := fringe_step_sim pk din pre1 keys0 e helow a1 a2 ha.1 ha.2.1 ha.2.2
      exact ⟨this.1, this.2.1, this.2.2⟩)
  exact ⟨hfold.1, hfold.2.1, hfold.2.2⟩

theorem fringe_loop_sim (pk : ℚ) (din : List (Int × ℚ)) (pre1 : List (Int × Int))
    (keys0 : List Int) :
    ∀ (fuel : Nat) (s t s2 : BGState),
      bgCoupled pre1 s t → bgGood pk din keys0 s →
      fringe_loop fuel s = some s2 →
      ∃ t2, fringe_loop fuel t = some t2 ∧ bgCoupled pre1 s2 t2 ∧
        bgGood pk din keys0 s2 := by
  intro fuel
  induction fuel with
  | zero =>
      intro s t s2 _ _ h
      exact absurd h (by rw [fringe_loop]; exact fun hh => Option.noConfusion hh)
  | succ fuel ih =>
      intro s t s2 hcoup hgood h
      obtain ⟨hn, hc2, hg2⟩ := fringe_pass_sim pk din pre1 keys0 s t hcoup hgood
      rw [fringe_loop] at h ⊢
      cases hps : fringe_pass s with
      | mk s3 ns =>
          cases hpt : fringe_pass t with
          | mk t3 nt =>
              rw [hps] at h hn hc2 hg2
              rw [hpt] at hn hc2
              have hn2 : nt = ns := hn
              have hc3 : bgCoupled pre1 s3 t3 := hc2
              have hg3 : bgGood pk din keys0 s3 := hg2
              subst hn2
              cases nt with
              | zero =>
                  have h2 : some s3 = some s2 := h
                  have h3 : s3 = s2 := by injection h2
                  subst h3
                  exact ⟨t3, rfl, hc3, hg3⟩
              | succ m =>
                  have h2 : fringe_loop fuel s3 = some s2 := h
                  exact ih s3 t3 s2 hc3 hg3 h2

theorem foldl_invariant {β γ : Type} (Q : β → Prop) (f : β → γ → β) :
    ∀ (L : List γ) (b : β), Q b → (∀ acc x, x ∈ L → Q acc → Q (f acc x)) →
      Q (L.foldl f b) := by
  intro L
  induction L with
  | nil => intro b hb _; exact hb
  | cons x L ih =>
      intro b hb hstep
      exact ih (f b x) (hstep b x (List.mem_cons_self x L) hb)
        (fun acc y hy hacc => hstep acc y (List.mem_cons_of_mem x hy) hacc)

/-! ### Properties of the densest-neighbour selection -/

theorem densestNNcompute_getD (density : List ℚ) :
    ∀ (NNtags : List (List Nat)) (pi : Nat),
      (densestNNcompute density NNtags).getD pi 0 =
        densest_tag density (NNtags.getD pi []) := by
  intro NNtags
  induction NNtags with
  | nil => intro pi; cases pi <;> rfl
  | cons r rs ih =>
      intro pi
      cases pi with
      | zero => rfl
      | succ pj => exact ih pj

theorem densest_tag_aux_ge_base (density : List ℚ) :
    ∀ (r : List Nat) (b : Nat),
      density.getD b 0 ≤ density.getD (densest_tag_aux density r b) 0 := by
  intro r
  induction r with
  | nil => intro b; exact le_refl _
  | cons t r ih =>
      intro b
      rw [densest_tag_aux]
      by_cases h : density.getD b 0 < density.getD t 0
      · rw [if_pos h]
        exact le_trans (le_of_lt h) (ih t)
      · rw [if_neg h]
        exact ih b

theorem densest_tag_aux_ge_mem (density : List ℚ) :
    ∀ (r : List Nat) (b t : Nat), t ∈ r →
      density.getD t 0 ≤ density.getD (densest_tag_aux density r b) 0 := by
  intro r
  induction r with
  | nil => intro b t ht; cases ht
  | cons t0 r ih =>
      intro b t ht
      rw [densest_tag_aux]
      rcases List.mem_cons.mp ht with h1 | h1
      · by_cases h : density.getD b 0 < density.getD t0 0
        · rw [if_pos h, h1]
          exact densest_tag_aux_ge_base density r t0
        · rw [if_neg h, h1]
          exact le_trans (le_of_not_lt h) (densest_tag_aux_ge_base density r b)
      · by_cases h : density.getD b 0 < density.getD t0 0
        · rw [if_pos h]
          exact ih t0 t h1
        · rw [if_neg h]
          exact ih b t h1

theorem densest_tag_aux_mem (density : List ℚ) :
    ∀ (r : List Nat) (b : Nat), densest_tag_aux density r b ∈ b :: r := by
  intro r
  induction r with
  | nil => intro b; exact List.mem_singleton.mpr rfl
  | cons t r ih =>
      intro b
      rw [densest_tag_aux]
      by_cases h : density.getD b 0 < density.getD t 0
      · rw [if_pos h]
        exact List.mem_cons_of_mem b (ih t)
      · rw [if_neg h]
        rcases List.mem_cons.mp (ih b) with h1 | h1
        · rw [h1]; exact List.mem_cons_self b _
        · exact List.mem_cons_of_mem b (List.mem_cons_of_mem t h1)

theorem densest_tag_ge (density : List ℚ) (row : List Nat) (i : Nat) (hi : i ∈ row) :
    density.getD i 0 ≤ density.getD (densest_tag density row) 0 := by
  cases row with
  | nil => cases hi
  | cons t rest =>
      rw [densest_tag]
      rcases List.mem_cons.mp hi with h1 | h1
      · rw [h1]; exact densest_tag_aux_ge_base density rest t
      · exact densest_tag_aux_ge_mem density rest t i h1

theorem densest_tag_mem (density : List ℚ) (row : List Nat) (h : row ≠ []) :
    densest_tag density row ∈ row := by
  cases row with
  | nil => exact absurd rfl h
  | cons t rest => exact densest_tag_aux_mem density rest t

/-! ### Below-threshold particles are never assigned (C6 machinery) -/

/-- One-step unfolding of `_recurse_links` with positive fuel. -/
theorem recurse_links_succ (P : HopParams) (dNN : List Nat) (fuel : Nat)
    (st : HopState) (pi : Nat) (cmax : Int) :
    recurse_links P dNN (fuel + 1) st pi cmax =
      (if st.chainID.getD (dNN.getD pi 0) (-1) > -1 ∧ P.is_inside pi then
        some ({ st with chainID := st.chainID.set pi (st.chainID.getD (dNN.getD pi 0) (-1)) },
          st.chainID.getD (dNN.getD pi 0) (-1))
      else if dNN.getD pi 0 = pi ∨ ¬ P.is_inside pi then
        some ({ chainID := st.chainID.set pi cmax,
                densest_in_chain :=
                  dictSet st.densest_in_chain cmax (P.density.getD pi 0),
                padded_particles :=
                  st.padded_particles ++ (if P.is_inside pi then [] else [pi]) }, cmax)
      else
        match recurse_links P dNN fuel st (dNN.getD pi 0) cmax with
        | none => none
        | some (st2, chainIDnew) =>
            some ({ st2 with chainID := st2.chainID.set pi chainIDnew }, chainIDnew)) := rfl

/-- `_recurse_links` started at a particle at or above threshold never
writes the chain id of a below-threshold particle, provided the
densest-neighbour link never decreases density (the adapter always lists a
particle among its own neighbours, so its densest neighbour is at least as
dense as itself). -/
theorem recurse_links_preserves_low (P : HopParams) (dNN : List Nat)
    (hasc : ∀ pi, pi < P.size →
      P.density.getD pi 0 ≤ P.density.getD (dNN.getD pi 0) 0)
    (hrange : ∀ pi, pi < P.size → dNN.getD pi 0 < P.size) :
    ∀ (fuel : Nat) (st : HopState) (pi : Nat) (cmax : Int) (st2 : HopState) (r : Int),
      recurse_links P dNN fuel st pi cmax = some (st2, r) →
      pi < P.size → P.threshold ≤ P.density.getD pi 0 →
      ∀ j, P.density.getD j 0 < P.threshold →
        st2.chainID.getD j (-1) = st.chainID.getD j (-1) := by
  intro fuel
  induction fuel with
  | zero =>
      intro st pi cmax st2 r h
      exact absurd h (by rw [recurse_links]; exact fun hh => Option.noConfusion hh)
  | succ fuel ih =>
      intro st pi cmax st2 r h hpi hth j hj
      have hpij : pi ≠ j := by
        intro hh
        rw [hh] at hth
        exact absurd (lt_of_lt_of_le hj hth) (lt_irrefl _)
      rw [recurse_links_succ] at h
      split at h
      · -- adopt branch: only particle pi is written
        simp only [Option.some.injEq, Prod.mk.injEq] at h
        obtain ⟨rfl, rfl⟩ := h
        exact getD_set_ne _ _ _ _ _ hpij
      · -- mint branch: only particle pi is written
        split at h
        · simp only [Option.some.injEq, Prod.mk.injEq] at h
          obtain ⟨rfl, rfl⟩ := h
          exact getD_set_ne _ _ _ _ _ hpij
        · -- recursive branch
          cases hrec : recurse_links P dNN fuel st (dNN.getD pi 0) cmax with
          | none => rw [hrec] at h; exact absurd h (fun hh => Option.noConfusion hh)
          | some val =>
              obtain ⟨st3, r3⟩ := val
              rw [hrec] at h
              simp only [Option.some.injEq, Prod.mk.injEq] at h
              obtain ⟨rfl, rfl⟩ := h
              have hstep : st3.chainID.getD j (-1) = st.chainID.getD j (-1) :=
                ih st (dNN.getD pi 0) cmax st3 r3 hrec (hrange pi hpi)
                  (le_trans hth (hasc pi hpi)) j hj
              calc ((st3.chainID.set pi r3).getD j (-1))
                  = st3.chainID.getD j (-1) := getD_set_ne _ _ _ _ _ hpij
                _ = st.chainID.getD j (-1) := hstep

/-- Through all of `_build_chains`, a below-threshold particle keeps
`chainID = -1`. -/
theorem build_chains_low (P : HopParams) (dNN : List Nat)
    (hasc : ∀ pi, pi < P.size →
      P.density.getD pi 0 ≤ P.density.getD (dNN.getD pi 0) 0)
    (hrange : ∀ pi, pi < P.size → dNN.getD pi 0 < P.size)
    (fuel : Nat) (st2 : HopState) (cmax : Int)
    (hbc : build_chains P dNN fuel = some (st2, cmax)) :
    ∀ j, P.density.getD j 0 < P.threshold → st2.chainID.getD j (-1) = -1 := by
  intro j hj
  have key :
      (∀ st c, build_chains P dNN fuel = some (st, c) → st.chainID.getD j (-1) = -1) := by
    unfold build_chains
    intro st c hsome
    have hQ := foldl_invariant
      (Q := fun acc : Option (HopState × Int) =>
        ∀ st c, acc = some (st, c) → st.chainID.getD j (-1) = -1)
      (build_chains_step P dNN fuel) (List.range P.size) (some (hopInit P, 0))
      (by
        intro st c h
        simp only [Option.some.injEq, Prod.mk.injEq] at h
        obtain ⟨rfl, rfl⟩ := h
        exact getD_replicate _ _ _)
      (by
        intro acc i hi hacc st c h
        unfold build_chains_step at h
        cases acc with
        | none => exact absurd h (fun hh => Option.noConfusion hh)
        | some prev =>
            obtain ⟨stp, cp⟩ := prev
            have hprev : stp.chainID.getD j (-1) = -1 := hacc stp cp rfl
            simp only at h
            split at h
            · simp only [Option.some.injEq, Prod.mk.injEq] at h
              obtain ⟨rfl, rfl⟩ := h
              exact hprev
            · rename_i hcond
              push_neg at hcond
              cases hrec : recurse_links P dNN fuel stp i cp with
              | none => rw [hrec] at h; exact absurd h (fun hh => Option.noConfusion hh)
              | some val =>
                  obtain ⟨st3, r3⟩ := val
                  rw [hrec] at h
                  simp only [Option.some.injEq, Prod.mk.injEq] at h
                  obtain ⟨rfl, rfl⟩ := h
                  rw [recurse_links_preserves_low P dNN hasc hrange fuel stp i cp st3 r3
                    hrec (List.mem_range.mp hi) hcond.2.2 j hj]
                  exact hprev)
    exact hQ st c hsome
  exact key st2 cmax hbc

/-- `_translate_groupIDs` leaves a `-1` (unassigned) entry at `-1`. -/
theorem translate_groupIDs_keeps_neg (rm : List (Int × Int)) (chainID : List Int)
    (i : Nat) (hi : chainID.getD i (-1) = -1) :
    (translate_groupIDs rm chainID).getD i (-1) = -1 := by
  unfold translate_groupIDs
  apply foldl_invariant (Q := fun acc : List Int => acc.getD i (-1) = -1) _ _ _ hi
  intro acc x _ hacc
  by_cases hx : acc.getD x (-1) = -1
  · rw [if_pos hx]
    exact hacc
  · rw [if_neg hx]
    have hxi : x ≠ i := fun hh => hx (hh ▸ hacc)
    rw [getD_set_ne _ _ _ _ _ hxi]
    exact hacc

theorem sortedSet_sorted (l : List Int) : (sortedSet l).Sorted (· ≤ ·) :=
  List.sorted_insertionSort _ _

theorem sortedSet_perm (l : List Int) : List.Perm (sortedSet l) l.dedup :=
  List.perm_insertionSort _ _

theorem sortedSet_nodup (l : List Int) : (sortedSet l).Nodup :=
  (sortedSet_perm l).nodup_iff.mpr l.nodup_dedup

theorem mem_sortedSet {a : Int} {l : List Int} : a ∈ sortedSet l ↔ a ∈ l := by
  rw [(sortedSet_perm l).mem_iff, List.mem_dedup]

theorem sortedSet_sorted_lt (l : List Int) : (sortedSet l).Sorted (· < ·) :=
  (sortedSet_sorted l).lt_of_le (sortedSet_nodup l)

/-- When `-1` occurs among the values and every value is `-1` or
non-negative, `-1` heads the sorted distinct value list: the code comment
"-1 is always the first item" is right exactly in this situation. -/
theorem sortedSet_head_neg_one {l : List Int}
    (hneg : (-1 : Int) ∈ l) (hvals : ∀ v ∈ l, v = -1 ∨ 0 ≤ v)
    (h : 0 < (sortedSet l).length) :
    (sortedSet l).get ⟨0, h⟩ = -1 := by
  have hmem : (-1 : Int) ∈ sortedSet l := mem_sortedSet.mpr hneg
  have hidx : (sortedSet l).indexOf (-1) < (sortedSet l).length :=
    List.indexOf_lt_length.mpr hmem
  have hget : (sortedSet l).get ⟨(sortedSet l).indexOf (-1), hidx⟩ = -1 :=
    List.indexOf_get hidx
  rcases Nat.eq_zero_or_pos ((sortedSet l).indexOf (-1)) with h0 | h0
  · rw [← hget]
    congr 1
    exact Fin.ext h0.symm
  · exfalso
    have hlt : (sortedSet l).get ⟨0, h⟩ < (sortedSet l).get ⟨_, hidx⟩ :=
      (sortedSet_sorted_lt l).rel_get_of_lt h0
    rw [hget] at hlt
    have hm : (sortedSet l).get ⟨0, h⟩ ∈ l := mem_sortedSet.mp (List.get_mem _ _ _)
    rcases hvals _ hm with h2 | h2 <;> omega

/-- In a strictly sorted integer list headed by `-1`, the entry at index `j`
is at least `j - 1`. -/
theorem sorted_get_ge_index {temp : List Int}
    (hlt : temp.Sorted (· < ·))
    (h0 : ∀ h : 0 < temp.length, temp.get ⟨0, h⟩ = -1) :
    ∀ (j : Nat) (h : j < temp.length), (j : Int) - 1 ≤ temp.get ⟨j, h⟩ := by
  intro j
  induction j with
  | zero => intro h; rw [h0 h]; simp
  | succ j ih =>
      intro h
      have hj : j < temp.length := Nat.lt_of_succ_lt h
      have hstep : temp.get ⟨j, hj⟩ < temp.get ⟨j + 1, h⟩ :=
        hlt.rel_get_of_lt (by exact Nat.lt_succ_self j)
      have := ih hj
      push_cast
      push_cast at this
      omega

/-- Characterisation of the enumeration loop of the compaction step: once
the first `k` rewrites are done (values at sorted position `≤ k` hold
`position - 1`), running the rest of the loop rewrites every value to
`(its position in the sorted distinct value list) - 1`. -/
theorem compact_loop_spec (rm : List (Int × Int)) (temp : List Int)
    (hlt : temp.Sorted (· < ·))
    (h0 : ∀ h : 0 < temp.length, temp.get ⟨0, h⟩ = -1)
    (hmem : ∀ p ∈ rm, p.2 ∈ temp) :
    ∀ (n k : Nat), temp.length - (k + 1) = n →
      compact_loop k
          (rm.map (fun p =>
            (p.1, if temp.indexOf p.2 ≤ k then (temp.indexOf p.2 : Int) - 1 else p.2)))
          (temp.drop (k + 1)) =
        rm.map (fun p => (p.1, (temp.indexOf p.2 : Int) - 1)) := by
  intro n
  induction n with
  | zero =>
      intro k hk
      have hlen : temp.length ≤ k + 1 := by omega
      rw [List.drop_eq_nil_of_le hlen]
      show rm.map _ = rm.map _
      apply List.map_congr_left
      intro p hp
      have hidx : temp.indexOf p.2 < temp.length := List.indexOf_lt_length.mpr (hmem p hp)
      have : temp.indexOf p.2 ≤ k := by omega
      simp [this]
  | succ n ih =>
      intro k hk
      have hklen : k + 1 < temp.length := by omega
      rw [List.drop_eq_getElem_cons hklen]
      set gID : Int := temp[k + 1] with hgID
      show compact_loop k _ (gID :: temp.drop (k + 1 + 1)) = _
      rw [compact_loop]
      have hgk : (k : Int) ≤ gID := by
        have := sorted_get_ge_index hlt h0 (k + 1) hklen
        simp only [List.get_eq_getElem] at this
        push_cast at this ⊢
        omega
      have key : ∀ (p : Int × Int), p ∈ rm →
          (if (if temp.indexOf p.2 ≤ k then (temp.indexOf p.2 : Int) - 1 else p.2) = gID
            then (p.1, (k : Int))
            else (p.1, if temp.indexOf p.2 ≤ k then (temp.indexOf p.2 : Int) - 1 else p.2))
          = (p.1, if temp.indexOf p.2 ≤ k + 1 then (temp.indexOf p.2 : Int) - 1 else p.2) := by
        intro p hp
        have hvmem : p.2 ∈ temp := hmem p hp
        have hidx : temp.indexOf p.2 < temp.length := List.indexOf_lt_length.mpr hvmem
        have hgetidx : temp.get ⟨temp.indexOf p.2, hidx⟩ = p.2 := List.indexOf_get hidx
        rcases Nat.lt_trichotomy (temp.indexOf p.2) (k + 1) with hc | hc | hc
        · -- index ≤ k : already rewritten, and its value (index - 1) < k ≤ gID
          have hle : temp.indexOf p.2 ≤ k := by omega
          have hle1 : temp.indexOf p.2 ≤ k + 1 := by omega
          have hne : (temp.indexOf p.2 : Int) - 1 ≠ gID := by
            have : (temp.indexOf p.2 : Int) ≤ (k : Int) := by exact_mod_cast hle
            omega
          rw [if_pos hle, if_pos hle1, if_neg hne]
        · -- index = k + 1 : this is exactly the value gID, rewritten to k
          have hnotle : ¬ temp.indexOf p.2 ≤ k := by omega
          have hv : p.2 = gID := by
            rw [← hgetidx]
            simp only [List.get_eq_getElem, hgID, hc]
          have hle1 : temp.indexOf p.2 ≤ k + 1 := by omega
          rw [if_neg hnotle, if_pos hv, if_pos hle1]
          have : (temp.indexOf p.2 : Int) - 1 = (k : Int) := by
            rw [hc]
            push_cast
            ring
          rw [this]
        · -- index > k + 1 : value strictly above gID, untouched
          have hnotle : ¬ temp.indexOf p.2 ≤ k := by omega
          have hnotle1 : ¬ temp.indexOf p.2 ≤ k + 1 := by omega
          have hvgt : gID < p.2 := by
            have h2 := hlt.rel_get_of_lt
              (a := ⟨k + 1, hklen⟩) (b := ⟨temp.indexOf p.2, hidx⟩) (by simpa using hc)
            rw [hgetidx] at h2
            simpa [hgID] using h2
          have hne : p.2 ≠ gID := by omega
          rw [if_neg hnotle, if_neg hne, if_neg hnotle1]
      by_cases hswap : gID ≠ (k : Int)
      · rw [if_pos hswap]
        have hsweep :
            sweep_reverse_map
              (rm.map (fun p =>
                (p.1, if temp.indexOf p.2 ≤ k then (temp.indexOf p.2 : Int) - 1 else p.2)))
              gID k
            = rm.map (fun p =>
                (p.1, if temp.indexOf p.2 ≤ k + 1 then (temp.indexOf p.2 : Int) - 1 else p.2)) := by
          unfold sweep_reverse_map
          rw [List.map_map]
          exact List.map_congr_left key
        rw [hsweep]
        exact ih (k + 1) (by omega)
      · rw [if_neg hswap]
        push_neg at hswap
        have hacc :
            rm.map (fun p =>
              (p.1, if temp.indexOf p.2 ≤ k then (temp.indexOf p.2 : Int) - 1 else p.2))
            = rm.map (fun p =>
                (p.1, if temp.indexOf p.2 ≤ k + 1 then (temp.indexOf p.2 : Int) - 1 else p.2)) := by
          apply List.map_congr_left
          intro p hp
          have hk1 := key p hp
          by_cases hcur :
              (if temp.indexOf p.2 ≤ k then (temp.indexOf p.2 : Int) - 1 else p.2) = gID
          · rw [if_pos hcur] at hk1
            rw [← hk1, Prod.mk.injEq]
            exact ⟨rfl, by rw [hcur, hswap]⟩
          · rw [if_neg hcur] at hk1
            exact hk1
        rw [hacc]
        exact ih (k + 1) (by omega)

/-- In a nodup list, the index of the `j`-th element is `j`. -/
theorem indexOf_get_of_nodup {temp : List Int} (hnd : temp.Nodup)
    {j : Nat} (h : j < temp.length) :
    temp.indexOf (temp.get ⟨j, h⟩) = j := by
  have hmem : temp.get ⟨j, h⟩ ∈ temp := List.get_mem _ _ _
  have hidx : temp.indexOf (temp.get ⟨j, h⟩) < temp.length :=
    List.indexOf_lt_length.mpr hmem
  have hget : temp.get ⟨temp.indexOf (temp.get ⟨j, h⟩), hidx⟩ = temp.get ⟨j, h⟩ :=
    List.indexOf_get hidx
  have h2 := (hnd.get_inj_iff).mp hget
  exact congrArg Fin.val h2

/-- C4 (amended): whenever the `-1` sentinel does occur among the
`reverse_map` values (which is the situation the code comment "-1 is always
the first item" assumes) and every value is `-1` or a non-negative group id,
the compaction step is correct: every value is relabelled to (its position
in the sorted distinct value list) − 1, so `-1` is preserved, the surviving
group ids form exactly the dense range `0..group_count−1`, and the returned
`group_count` is the number of distinct non-(−1) group ids. -/
theorem compact_groupIDs_spec (rm : List (Int × Int))
    (hneg : (-1 : Int) ∈ rm.map Prod.snd)
    (hvals : ∀ v ∈ rm.map Prod.snd, v = -1 ∨ 0 ≤ v) :
    (compact_groupIDs rm).1 =
      rm.map (fun p => (p.1, ((sortedSet (rm.map Prod.snd)).indexOf p.2 : Int) - 1)) ∧
    (compact_groupIDs rm).2 = (((rm.map Prod.snd).toFinset.erase (-1)).card : Int) ∧
    (∀ p ∈ (compact_groupIDs rm).1,
      p.2 = -1 ∨ (0 ≤ p.2 ∧ p.2 < (compact_groupIDs rm).2)) ∧
    (∀ g : Int, 0 ≤ g → g < (compact_groupIDs rm).2 →
      g ∈ (compact_groupIDs rm).1.map Prod.snd) := by
  set vals := rm.map Prod.snd with hvalsdef
  set temp := sortedSet vals with htemp
  have hlt : temp.Sorted (· < ·) := sortedSet_sorted_lt vals
  have hnd : temp.Nodup := sortedSet_nodup vals
  have hnegtemp : (-1 : Int) ∈ temp := mem_sortedSet.mpr hneg
  have hpos : 0 < temp.length := List.length_pos.mpr (List.ne_nil_of_mem hnegtemp)
  have h0 : ∀ h : 0 < temp.length, temp.get ⟨0, h⟩ = -1 := fun h =>
    sortedSet_head_neg_one hneg hvals h
  have hmem : ∀ p ∈ rm, p.2 ∈ temp := by
    intro p hp
    exact mem_sortedSet.mpr (List.mem_map_of_mem Prod.snd hp)
  -- the main relabelling equation
  have hinit : rm =
      rm.map (fun p =>
        (p.1, if temp.indexOf p.2 ≤ 0 then (temp.indexOf p.2 : Int) - 1 else p.2)) := by
    nth_rewrite 1 [← List.map_id rm]
    apply List.map_congr_left
    intro p hp
    by_cases hz : temp.indexOf p.2 ≤ 0
    · have hz0 : temp.indexOf p.2 = 0 := by omega
      have hidx : temp.indexOf p.2 < temp.length := List.indexOf_lt_length.mpr (hmem p hp)
      have hpv : p.2 = -1 := by
        have hgv : p.2 = temp.get ⟨0, hpos⟩ := by
          rw [← List.indexOf_get hidx]
          congr 1
          exact Fin.ext hz0
        rw [hgv, h0 hpos]
      show p = (p.1, if temp.indexOf p.2 ≤ 0 then ((temp.indexOf p.2 : Int)) - 1 else p.2)
      rw [if_pos hz, hz0]
      have hval : (((0 : Nat) : Int)) - 1 = -1 := by norm_num
      rw [hval, ← hpv]
    · simp [hz]
  have hmain : (compact_groupIDs rm).1 =
      rm.map (fun p => (p.1, (temp.indexOf p.2 : Int) - 1)) := by
    show compact_loop 0 rm (temp.drop 1) = _
    nth_rewrite 1 [hinit]
    exact compact_loop_spec rm temp hlt h0 hmem (temp.length - 1) 0 rfl
  have hlen : temp.length = vals.dedup.length := (sortedSet_perm vals).length_eq
  have hcard : vals.toFinset.card = vals.dedup.length := List.card_toFinset vals
  have hcount : (compact_groupIDs rm).2 = (temp.length : Int) - 1 := rfl
  have hcard2 : (vals.toFinset.erase (-1)).card = vals.toFinset.card - 1 :=
    Finset.card_erase_of_mem (List.mem_toFinset.mpr hneg)
  have hcardpos : 0 < vals.toFinset.card := by omega
  refine ⟨hmain, by rw [hcount]; omega, ?_, ?_⟩
  · -- values of the result are -1 or lie in the dense range
    intro p hp
    rw [hmain] at hp
    obtain ⟨q, hq, rfl⟩ := List.mem_map.mp hp
    have hidx : temp.indexOf q.2 < temp.length := List.indexOf_lt_length.mpr (hmem q hq)
    rcases Nat.eq_zero_or_pos (temp.indexOf q.2) with hz | hz
    · left
      simp [hz]
    · right
      rw [hcount]
      constructor
      · simp only []
        omega
      · simp only []
        omega
  · -- every id in the dense range is attained
    intro g hg0 hgc
    rw [hcount] at hgc
    have hj : g.toNat + 1 < temp.length := by omega
    have hvtemp : temp.get ⟨g.toNat + 1, hj⟩ ∈ temp := List.get_mem _ _ _
    obtain ⟨p, hp, hpv⟩ := List.mem_map.mp (mem_sortedSet.mp hvtemp)
    rw [hmain, List.map_map]
    refine List.mem_map.mpr ⟨p, hp, ?_⟩
    have : temp.indexOf p.2 = g.toNat + 1 := by
      rw [hpv]
      exact indexOf_get_of_nodup hnd hj
    simp only [Function.comp_apply, this]
    omega

theorem getD_range_const {α : Type} (cc : Nat) (d : α) (c : Int) :
    dictGetD ((List.range cc).map (fun i => (Int.ofNat i, d))) c d = d := by
  cases hg : dictGet ((List.range cc).map (fun i => (Int.ofNat i, d))) c with
  | none => rw [dictGetD, hg]; rfl
  | some v =>
      have hmem := mem_of_dictGet hg
      obtain ⟨i, _, hpair⟩ := List.mem_map.mp hmem
      have h2 : d = v := congrArg Prod.snd hpair
      unfold dictGetD
      rw [hg]
      show v = d
      exact h2.symm

theorem initial_keys_nodup (cc : Nat) :
    ((initial_reverse_map cc).map Prod.fst).Nodup := by
  unfold initial_reverse_map
  rw [List.map_map]
  refine List.Nodup.map ?_ (List.nodup_range cc)
  intro a b h
  exact Int.ofNat.inj h

theorem compact_loop_keys :
    ∀ (temp : List Int) (k : Nat) (acc : List (Int × Int)),
      (compact_loop k acc temp).map Prod.fst = acc.map Prod.fst := by
  intro temp
  induction temp with
  | nil => intro k acc; rfl
  | cons g rest ih =>
      intro k acc
      rw [compact_loop]
      by_cases hg : g ≠ (k : Int)
      · rw [if_pos hg, ih, sweep_keys]
      · rw [if_neg hg, ih]

theorem compact_keys (rm : List (Int × Int)) :
    (compact_groupIDs rm).1.map Prod.fst = rm.map Prod.fst := by
  show (compact_loop 0 rm ((sortedSet (rm.map Prod.snd)).drop 1)).map Prod.fst =
    rm.map Prod.fst
  exact compact_loop_keys _ 0 rm

theorem indexOf_zero_of_min {l : List Int} (hl : l.Sorted (· < ·))
    (hmem : (-1 : Int) ∈ l) (hge : ∀ v ∈ l, -1 ≤ v) : l.indexOf (-1) = 0 := by
  cases l with
  | nil => cases hmem
  | cons a rest =>
      have ha : a = -1 := by
        cases hmem with
        | head => rfl
        | tail _ hm =>
            have h1 := (List.sorted_cons.mp hl).1 (-1) hm
            have h2 := hge a (List.mem_cons_self a rest)
            omega
      rw [ha]
      exact List.indexOf_cons_self _ _

/-- C6: with the kd-tree adapter invariants that every particle appears in
its own neighbour row (hence its densest nearest neighbour is at least as
dense as itself) and that rows hold valid particle indices, any completed
run of `_build_chains` leaves every particle whose density is strictly
below `threshold` with `chainID = -1`, and the group-id translation then
leaves its final group id at `-1`, whatever `reverse_map` is. -/
theorem below_threshold_never_grouped (P : HopParams) (fuel : Nat)
    (st2 : HopState) (cmax : Int) (rm : List (Int × Int))
    (hrows : ∀ i, i < P.size → i ∈ P.NNtags.getD i [])
    (htags : ∀ i, i < P.size → ∀ t ∈ P.NNtags.getD i [], t < P.size)
    (hbc : build_chains P (densestNNcompute P.density P.NNtags) fuel = some (st2, cmax))
    (i : Nat) (hlow : P.density.getD i 0 < P.threshold) :
    st2.chainID.getD i (-1) = -1 ∧
    (translate_groupIDs rm st2.chainID).getD i (-1) = -1 := by
  have hasc : ∀ pi, pi < P.size →
      P.density.getD pi 0 ≤
        P.density.getD ((densestNNcompute P.density P.NNtags).getD pi 0) 0 := by
    intro pi hpi
    rw [densestNNcompute_getD]
    exact densest_tag_ge _ _ _ (hrows pi hpi)
  have hrange : ∀ pi, pi < P.size →
      (densestNNcompute P.density P.NNtags).getD pi 0 < P.size := by
    intro pi hpi
    rw [densestNNcompute_getD]
    exact htags pi hpi _ (densest_tag_mem _ _ (List.ne_nil_of_mem (hrows pi hpi)))
  have h1 := build_chains_low P _ hasc hrange fuel st2 cmax hbc i hlow
  exact ⟨h1, translate_groupIDs_keeps_neg rm st2.chainID i h1⟩

/-- Witness for C6 on the concrete two-particle configuration: particle 1
has density `1 < 3 = threshold`, chain building completes, and particle 1
ends with `chainID = -1` and group id `-1`. -/
theorem below_threshold_never_grouped_witness :
    build_chains exampleLowP (densestNNcompute exampleLowP.density exampleLowP.NNtags) 2 =
      some (⟨[0, -1], [(0, 5)], []⟩, 1) ∧
    exampleLowP.density.getD 1 0 < exampleLowP.threshold ∧
    (⟨[0, -1], [(0, 5)], []⟩ : HopState).chainID.getD 1 (-1) = -1 ∧
    (translate_groupIDs [(0, 7)]
      (⟨[0, -1], [(0, 5)], []⟩ : HopState).chainID).getD 1 (-1) = -1 :=
  ⟨by decide, by decide,
    (below_threshold_never_grouped exampleLowP 2 ⟨[0, -1], [(0, 5)], []⟩ 1 [(0, 7)]
      (by intro i hi
          have h2 : i < 2 := hi
          interval_cases i <;> decide)
      (by intro i hi
          have h2 : i < 2 := hi
          interval_cases i <;> decide)
      (by decide) 1 (by decide)).1,
    (below_threshold_never_grouped exampleLowP 2 ⟨[0, -1], [(0, 5)], []⟩ 1 [(0, 7)]
      (by intro i hi
          have h2 : i < 2 := hi
          interval_cases i <;> decide)
      (by intro i hi
          have h2 : i < 2 := hi
          interval_cases i <;> decide)
      (by decide) 1 (by decide)).2⟩

/-- C4 (counterexample): on a `reverse_map` in which no chain is mapped to
the `-1` sentinel — `{0 ↦ 0, 1 ↦ 1}`, already dense with 2 distinct group
ids — the compaction step of `_build_groups` skips `temp[0] = 0` (assuming
it is the `-1` sentinel), collapses group `1` onto group `0`, and returns
`group_count = 1`, not the number 2 of distinct non-(-1) group ids. -/
theorem compact_groupIDs_no_sentinel_counterexample :
    compact_groupIDs [(0, 0), (1, 1)] = ([(0, 0), (1, 0)], 1) ∧
    ((([(0, 0), (1, 1)] : List (Int × Int)).map Prod.snd).filter (fun v => v ≠ -1)).dedup.length
      = 2 ∧
    (1 : Int) ≠ 2 := by
  refine ⟨by decide, by decide, by decide⟩

/-- Witness for the amended C4 on `{5 ↦ 0, 6 ↦ -1, 7 ↦ 1}`: the sentinel
`-1` is present, and the returned group count is the number of distinct
non-(-1) group ids. -/
theorem compact_groupIDs_spec_witness :
    ((-1 : Int) ∈ ([(5, 0), (6, -1), (7, 1)] : List (Int × Int)).map Prod.snd) ∧
    (compact_groupIDs [(5, 0), (6, -1), (7, 1)]).2 =
      (((([(5, 0), (6, -1), (7, 1)] : List (Int × Int)).map Prod.snd).toFinset.erase
        (-1)).card : Int) :=
  ⟨by decide,
    (compact_groupIDs_spec [(5, 0), (6, -1), (7, 1)] (by decide)
      (by decide)).2.1⟩

/-! ### Divergence of `_recurse_links` on an equal-density 2-cycle (C3) -/

/-- On the 2-cycle configuration, `_recurse_links` consumes all fuel
without returning: the Python recursion never terminates, no matter the
recursion depth available. -/
theorem recurse_links_cycle_diverges :
    ∀ fuel : Nat,
      recurse_links exampleCycleP
        (densestNNcompute exampleCycleP.density exampleCycleP.NNtags) fuel
        (hopInit exampleCycleP) 0 0 = none ∧
      recurse_links exampleCycleP
        (densestNNcompute exampleCycleP.density exampleCycleP.NNtags) fuel
        (hopInit exampleCycleP) 1 0 = none := by
  intro fuel
  induction fuel with
  | zero => exact ⟨rfl, rfl⟩
  | succ fuel ih =>
      constructor
      · rw [recurse_links_succ, if_neg (by decide), if_neg (by decide)]
        have h0 : (densestNNcompute exampleCycleP.density exampleCycleP.NNtags).getD 0 0
            = 1 := by decide
        rw [h0, ih.2]
      · rw [recurse_links_succ, if_neg (by decide), if_neg (by decide)]
        have h1 : (densestNNcompute exampleCycleP.density exampleCycleP.NNtags).getD 1 0
            = 0 := by decide
        rw [h1, ih.1]

/-- C3 (counterexample): under the claim's precondition exactly as stated —
every particle's densest nearest neighbour has density *greater than or
equal to* its own — the recursion need not terminate: on two equally dense
particles that are each other's densest neighbour (densities `[5, 5]`,
both at or above threshold, both inside), `_recurse_links` diverges for
every amount of fuel, because the chain-id memoisation only writes on the
way back out of the recursion. -/
theorem recurse_links_nonterminating_counterexample :
    (∀ i, i < exampleCycleP.size →
      exampleCycleP.density.getD i 0 ≤
        exampleCycleP.density.getD
          ((densestNNcompute exampleCycleP.density exampleCycleP.NNtags).getD i 0) 0) ∧
    exampleCycleP.threshold ≤ exampleCycleP.density.getD 0 0 ∧
    (exampleCycleP.is_inside 0 = true) ∧
    ¬ (∃ fuel : Nat,
        (recurse_links exampleCycleP
          (densestNNcompute exampleCycleP.density exampleCycleP.NNtags) fuel
          (hopInit exampleCycleP) 0 0).isSome) := by
  refine ⟨?_, by decide, by decide, ?_⟩
  · intro i hi
    have h2 : i < 2 := hi
    interval_cases i <;> decide
  · rintro ⟨fuel, hf⟩
    rw [(recurse_links_cycle_diverges fuel).1] at hf
    simp at hf

/-! ### Termination of `_recurse_links` under strict density ascent (C3) -/

/-- With strict density ascent along non-self links, the recursion depth is
bounded by the number of strictly denser particles. -/
theorem recurse_links_terminates_measure (P : HopParams) (dNN : List Nat)
    (hrange : ∀ pi, pi < P.size → dNN.getD pi 0 < P.size)
    (hstrict : ∀ pi, pi < P.size → dNN.getD pi 0 = pi ∨
      P.density.getD pi 0 < P.density.getD (dNN.getD pi 0) 0) :
    ∀ (fuel : Nat) (st : HopState) (pi : Nat) (cmax : Int),
      pi < P.size →
      ((Finset.range P.size).filter
        (fun j => P.density.getD pi 0 < P.density.getD j 0)).card < fuel →
      (recurse_links P dNN fuel st pi cmax).isSome := by
  intro fuel
  induction fuel with
  | zero => intro st pi cmax hpi hm; omega
  | succ fuel ih =>
      intro st pi cmax hpi hm
      rw [recurse_links_succ]
      split
      · rfl
      · split
        · rfl
        · rename_i h1 h2
          push_neg at h2
          have hnn : dNN.getD pi 0 < P.size := hrange pi hpi
          have hstep : P.density.getD pi 0 < P.density.getD (dNN.getD pi 0) 0 :=
            (hstrict pi hpi).resolve_left h2.1
          have hcard :
              ((Finset.range P.size).filter
                (fun j => P.density.getD (dNN.getD pi 0) 0 < P.density.getD j 0)).card <
              ((Finset.range P.size).filter
                (fun j => P.density.getD pi 0 < P.density.getD j 0)).card := by
            apply Finset.card_lt_card
            rw [Finset.ssubset_iff_of_subset]
            · exact ⟨dNN.getD pi 0,
                Finset.mem_filter.mpr ⟨Finset.mem_range.mpr hnn, hstep⟩,
                fun hmem => absurd (Finset.mem_filter.mp hmem).2 (lt_irrefl _)⟩
            · intro j hj
              obtain ⟨hjr, hjd⟩ := Finset.mem_filter.mp hj
              exact Finset.mem_filter.mpr ⟨hjr, lt_trans hstep hjd⟩
          have hrec := ih st (dNN.getD pi 0) cmax hnn (by omega)
          cases heq : recurse_links P dNN fuel st (dNN.getD pi 0) cmax with
          | none => rw [heq] at hrec; exact absurd hrec (by simp)
          | some val =>
              obtain ⟨st3, r3⟩ := val
              rfl

/-- C3 (amended): the claim holds once its precondition is strengthened
from "the densest neighbour is at least as dense" to the strict form that
actually rules out equal-density cycles — every particle's densest nearest
neighbour is the particle itself (a self-maximum) or is *strictly* denser.
Then `_recurse_links` terminates from any starting particle within
recursion depth `size`, and the `chainID` memoisation makes the
`_build_chains` loop skip any particle that already carries a chain id. -/
theorem recurse_links_terminates (P : HopParams) (dNN : List Nat)
    (hrange : ∀ pi, pi < P.size → dNN.getD pi 0 < P.size)
    (hstrict : ∀ pi, pi < P.size → dNN.getD pi 0 = pi ∨
      P.density.getD pi 0 < P.density.getD (dNN.getD pi 0) 0)
    (st : HopState) (cmax : Int) (pi : Nat) (hpi : pi < P.size)
    (hthresh : P.threshold ≤ P.density.getD pi 0) :
    (recurse_links P dNN P.size st pi cmax).isSome = true ∧
    (∀ (fuel : Nat) (stx : HopState) (c : Int) (i : Nat),
      stx.chainID.getD i (-1) > -1 →
      build_chains_step P dNN fuel (some (stx, c)) i = some (stx, c)) := by
  constructor
  · apply recurse_links_terminates_measure P dNN hrange hstrict P.size st pi cmax hpi
    have hsub : ((Finset.range P.size).filter
        (fun j => P.density.getD pi 0 < P.density.getD j 0)) ⊆
        (Finset.range P.size).erase pi := by
      intro j hj
      obtain ⟨hjr, hjd⟩ := Finset.mem_filter.mp hj
      refine Finset.mem_erase.mpr ⟨?_, hjr⟩
      intro hh
      rw [hh] at hjd
      exact absurd hjd (lt_irrefl _)
    have hle := Finset.card_le_card hsub
    rw [Finset.card_erase_of_mem (Finset.mem_range.mpr hpi), Finset.card_range] at hle
    omega
  · intro fuel stx c i hid
    unfold build_chains_step
    simp only
    rw [if_pos (Or.inl hid)]

/-! ### Unique chain terminals (C7 machinery) -/

/-- Shape of a successful `_recurse_links` call entered at an unassigned
particle: every write is to a previously unassigned particle and writes the
returned id; the entry particle ends with the returned id; and either the
call adopted an existing id (touching no terminal particle and leaving
`densest_in_chain` alone) or it minted `chainIDmax` at exactly one terminal
particle, recording that particle's density. -/
theorem recurse_links_shape (P : HopParams) (dNN : List Nat)
    (hrange : ∀ pi, pi < P.size → dNN.getD pi 0 < P.size) :
    ∀ (fuel : Nat) (st : HopState) (pi : Nat) (cmax : Int) (st2 : HopState) (r : Int),
      recurse_links P dNN fuel st pi cmax = some (st2, r) →
      pi < P.size →
      st.chainID.getD pi (-1) = -1 →
      st.chainID.length = P.size →
      0 ≤ cmax →
      (∀ j : Nat, -1 ≤ st.chainID.getD j (-1) ∧ st.chainID.getD j (-1) < cmax) →
      ( st2.chainID.length = P.size ∧
        (∀ j : Nat, st2.chainID.getD j (-1) = st.chainID.getD j (-1) ∨
          (st.chainID.getD j (-1) = -1 ∧ st2.chainID.getD j (-1) = r ∧ j < P.size)) ∧
        st2.chainID.getD pi (-1) = r ∧
        ( (0 ≤ r ∧ r < cmax ∧
            st2.densest_in_chain = st.densest_in_chain ∧
            (∀ j : Nat, terminalPart P dNN j →
              st2.chainID.getD j (-1) = st.chainID.getD j (-1)))
          ∨ (r = cmax ∧
              ∃ q, q < P.size ∧ terminalPart P dNN q ∧
                st.chainID.getD q (-1) = -1 ∧
                st2.chainID.getD q (-1) = cmax ∧
                st2.densest_in_chain =
                  dictSet st.densest_in_chain cmax (P.density.getD q 0) ∧
                (∀ j : Nat, terminalPart P dNN j → j ≠ q →
                  st2.chainID.getD j (-1) = st.chainID.getD j (-1))) ) ) := by
  intro fuel
  induction fuel with
  | zero =>
      intro st pi cmax st2 r h
      exact absurd h (by rw [recurse_links]; exact fun hh => Option.noConfusion hh)
  | succ fuel ih =>
      intro st pi cmax st2 r h hpi hpi0 hlen hcm hIB
      rw [recurse_links_succ] at h
      split at h
      · -- adopt the neighbour's id
        rename_i h1
        simp only [Option.some.injEq, Prod.mk.injEq] at h
        obtain ⟨rfl, rfl⟩ := h
        have hpiterm : ¬ terminalPart P dNN pi := by
          intro ht
          rcases ht with ht | ht
          · rw [ht, hpi0] at h1
            exact absurd h1.1 (by omega)
          · rw [ht] at h1
            exact Bool.noConfusion h1.2
        refine ⟨by simpa using hlen, ?_, ?_, Or.inl ⟨by omega, (hIB _).2, rfl, ?_⟩⟩
        · intro j
          by_cases hj : j = pi
          · subst hj
            exact Or.inr ⟨hpi0, getD_set_self _ _ _ _ (by omega), hpi⟩
          · exact Or.inl (getD_set_ne _ _ _ _ _ (fun hh => hj hh.symm))
        · exact getD_set_self _ _ _ _ (by omega)
        · intro j hterm
          have hj : j ≠ pi := fun hh => hpiterm (hh ▸ hterm)
          exact getD_set_ne _ _ _ _ _ (fun hh => hj hh.symm)
      · split at h
        · -- mint a new chain at this terminal particle
          rename_i h1 h2
          simp only [Option.some.injEq, Prod.mk.injEq] at h
          obtain ⟨rfl, rfl⟩ := h
          have hterm : terminalPart P dNN pi := by
            rcases h2 with h2 | h2
            · exact Or.inl h2
            · exact Or.inr (Bool.not_eq_true _ ▸ h2)
          refine ⟨by simpa using hlen, ?_, getD_set_self _ _ _ _ (by omega),
            Or.inr ⟨rfl, pi, hpi, hterm, hpi0, getD_set_self _ _ _ _ (by omega), rfl, ?_⟩⟩
          · intro j
            by_cases hj : j = pi
            · subst hj
              exact Or.inr ⟨hpi0, getD_set_self _ _ _ _ (by omega), hpi⟩
            · exact Or.inl (getD_set_ne _ _ _ _ _ (fun hh => hj hh.symm))
          · intro j _ hj
            exact getD_set_ne _ _ _ _ _ (fun hh => hj hh.symm)
        · -- recursive case
          rename_i h1 h2
          push_neg at h2
          have hinside : P.is_inside pi = true := h2.2
          have hnnpi : dNN.getD pi 0 ≠ pi := h2.1
          have hpiterm : ¬ terminalPart P dNN pi := by
            intro ht
            rcases ht with ht | ht
            · exact hnnpi ht
            · rw [ht] at hinside; exact Bool.noConfusion hinside
          have hnn : dNN.getD pi 0 < P.size := hrange pi hpi
          have hnn0 : st.chainID.getD (dNN.getD pi 0) (-1) = -1 := by
            have hle : ¬ (st.chainID.getD (dNN.getD pi 0) (-1) > -1 ∧
                P.is_inside pi = true) := h1
            have := (hIB (dNN.getD pi 0)).1
            by_contra hne
            exact hle ⟨by omega, hinside⟩
          cases hrec : recurse_links P dNN fuel st (dNN.getD pi 0) cmax with
          | none => rw [hrec] at h; exact absurd h (fun hh => Option.noConfusion hh)
          | some val =>
              obtain ⟨st3, r3⟩ := val
              rw [hrec] at h
              simp only [Option.some.injEq, Prod.mk.injEq] at h
              obtain ⟨rfl, rfl⟩ := h
              obtain ⟨ihlen, ihchg, ihpi, ihcase⟩ :=
                ih st (dNN.getD pi 0) cmax st3 r3 hrec hnn hnn0 hlen hcm hIB
              have hr3 : 0 ≤ r3 := by
                rcases ihcase with ⟨h0, _⟩ | ⟨hq, _⟩
                · exact h0
                · omega
              refine ⟨by simpa using ihlen, ?_, getD_set_self _ _ _ _ (by omega), ?_⟩
              · intro j
                by_cases hj : j = pi
                · subst hj
                  exact Or.inr ⟨hpi0, getD_set_self _ _ _ _ (by omega), hpi⟩
                · have hset : (st3.chainID.set pi r3).getD j (-1) = st3.chainID.getD j (-1) :=
                    getD_set_ne _ _ _ _ _ (fun hh => hj hh.symm)
                  rw [hset]
                  exact ihchg j
              · rcases ihcase with ⟨h0, hlt, hdin, hterm⟩ | ⟨hrc, q, hq, hqt, hq0, hqc, hdin, hterm⟩
                · refine Or.inl ⟨h0, hlt, hdin, ?_⟩
                  intro j ht
                  have hj : j ≠ pi := fun hh => hpiterm (hh ▸ ht)
                  rw [getD_set_ne _ _ _ _ _ (fun hh => hj hh.symm)]
                  exact hterm j ht
                · refine Or.inr ⟨hrc, q, hq, hqt, hq0, ?_, hdin, ?_⟩
                  · have hqpi : q ≠ pi := fun hh => hpiterm (hh ▸ hqt)
                    rw [getD_set_ne _ _ _ _ _ (fun hh => hqpi hh.symm)]
                    exact hqc
                  · intro j ht hjq
                    have hj : j ≠ pi := fun hh => hpiterm (hh ▸ ht)
                    rw [getD_set_ne _ _ _ _ _ (fun hh => hj hh.symm)]
                    exact hterm j ht hjq

/-- `_build_chains` establishes the chain invariant from the initial
state. -/
theorem build_chains_inv (P : HopParams) (dNN : List Nat)
    (hrange : ∀ pi, pi < P.size → dNN.getD pi 0 < P.size)
    (fuel : Nat) (st2 : HopState) (cmax : Int)
    (hbc : build_chains P dNN fuel = some (st2, cmax)) :
    chainInv P dNN st2 cmax := by
  have key := foldl_invariant
    (Q := fun acc : Option (HopState × Int) =>
      ∀ st c, acc = some (st, c) → chainInv P dNN st c)
    (build_chains_step P dNN fuel) (List.range P.size) (some (hopInit P, 0))
    (by
      intro st c h
      simp only [Option.some.injEq, Prod.mk.injEq] at h
      obtain ⟨rfl, rfl⟩ := h
      refine ⟨le_refl 0, by simp [hopInit, HopParams.size], ?_, ?_, ?_⟩
      · intro j
        rw [hopInit]
        simp only
        rw [getD_replicate]
        omega
      · intro c h0 hc
        omega
      · intro c hc
        rw [hopInit] at hc
        simp [dictGet] at hc)
    (by
      intro acc i hi hacc st c h
      unfold build_chains_step at h
      cases acc with
      | none => exact absurd h (fun hh => Option.noConfusion hh)
      | some prev =>
          obtain ⟨stp, cp⟩ := prev
          obtain ⟨hcm, hlen, hIB, hIA, hIC⟩ := hacc stp cp rfl
          simp only at h
          split at h
          · simp only [Option.some.injEq, Prod.mk.injEq] at h
            obtain ⟨rfl, rfl⟩ := h
            exact ⟨hcm, hlen, hIB, hIA, hIC⟩
          · rename_i hcond
            push_neg at hcond
            have hi0 : stp.chainID.getD i (-1) = -1 := by
              have := (hIB i).1
              have h2 := hcond.1
              omega
            cases hrec : recurse_links P dNN fuel stp i cp with
            | none => rw [hrec] at h; exact absurd h (fun hh => Option.noConfusion hh)
            | some val =>
                obtain ⟨st3, r3⟩ := val
                rw [hrec] at h
                simp only [Option.some.injEq, Prod.mk.injEq] at h
                obtain ⟨rfl, rfl⟩ := h
                obtain ⟨ihlen, ihchg, ihpi, ihcase⟩ :=
                  recurse_links_shape P dNN hrange fuel stp i cp st3 r3 hrec
                    (List.mem_range.mp hi) hi0 hlen hcm hIB
                rcases ihcase with ⟨h0, hlt, hdin, hterm⟩ |
                    ⟨hrc, q, hq, hqt, hq0, hqc, hdin, hterm⟩
                · -- adopted an existing chain: count does not advance
                  have hne : ¬ r3 = cp := by omega
                  rw [if_neg hne]
                  refine ⟨hcm, ihlen, ?_, ?_, ?_⟩
                  · intro j
                    rcases ihchg j with hj | ⟨_, hj, _⟩
                    · rw [hj]; exact hIB j
                    · rw [hj]; omega
                  · intro c hc0 hcc
                    obtain ⟨qq, hqq, hqqc, hqqt, hqqd, hqquniq⟩ := hIA c hc0 hcc
                    refine ⟨qq, hqq, ?_, hqqt, by rw [hdin]; exact hqqd, ?_⟩
                    · rw [hterm qq hqqt]; exact hqqc
                    · intro j hjs hjc hjt
                      exact hqquniq j hjs (by rw [← hterm j hjt]; exact hjc) hjt
                  · intro c hc
                    rw [hdin] at hc
                    exact hIC c hc
                · -- minted chain cp: count advances to cp + 1
                  rw [if_pos hrc]
                  subst hrc
                  refine ⟨by omega, ihlen, ?_, ?_, ?_⟩
                  · intro j
                    rcases ihchg j with hj | ⟨_, hj, _⟩
                    · have := hIB j; rw [hj]; omega
                    · rw [hj]; omega
                  · intro c hc0 hcc
                    by_cases hceq : c = r3
                    · subst hceq
                      refine ⟨q, hq, hq0 ▸ hqc, hqt, ?_, ?_⟩
                      · rw [hdin, dictGet_dictSet_self]
                      · intro j hjs hjc hjt
                        by_cases hjq : j = q
                        · exact hjq
                        · rw [hterm j hjt hjq] at hjc
                          have := (hIB j).2
                          omega
                    · have hclt : c < r3 := by omega
                      obtain ⟨qq, hqq, hqqc, hqqt, hqqd, hqquniq⟩ := hIA c hc0 hclt
                      have hqqne : qq ≠ q := by
                        intro hh
                        rw [hh, hq0] at hqqc
                        omega
                      refine ⟨qq, hqq, ?_, hqqt, ?_, ?_⟩
                      · rw [hterm qq hqqt hqqne]; exact hqqc
                      · rw [hdin, dictGet_dictSet_ne _ _ _ _ hceq]; exact hqqd
                      · intro j hjs hjc hjt
                        have hjq : j ≠ q := by
                          intro hh
                          rw [hh, hqc] at hjc
                          exact hceq hjc.symm
                        exact hqquniq j hjs (by rw [← hterm j hjt hjq]; exact hjc) hjt
                  · intro c hc
                    rw [hdin] at hc
                    by_cases hceq : c = r3
                    · omega
                    · rw [dictGet_dictSet_ne _ _ _ _ hceq] at hc
                      have := hIC c hc
                      omega)
  exact key st2 cmax hbc

/-- C7: after a completed `_build_chains`, every chain id `c` created
(`0 ≤ c <` returned chain count) has exactly one member particle that is
its own densest nearest neighbour or lies outside the owned region, that
member's density is the value recorded for `c` in `densest_in_chain`, and
`densest_in_chain` holds a value for exactly the created chain ids — so
every chain has exactly one densest-in-chain value. -/
theorem build_chains_unique_terminal (P : HopParams) (dNN : List Nat) (fuel : Nat)
    (st2 : HopState) (cmax : Int)
    (hrange : ∀ pi, pi < P.size → dNN.getD pi 0 < P.size)
    (hbc : build_chains P dNN fuel = some (st2, cmax)) :
    (∀ c : Int, 0 ≤ c → c < cmax →
      ∃ q, q < P.size ∧ st2.chainID.getD q (-1) = c ∧ terminalPart P dNN q ∧
        dictGet st2.densest_in_chain c = some (P.density.getD q 0) ∧
        (∀ j, j < P.size → st2.chainID.getD j (-1) = c → terminalPart P dNN j → j = q)) ∧
    (∀ c : Int, (dictGet st2.densest_in_chain c).isSome = true ↔ (0 ≤ c ∧ c < cmax)) := by
  obtain ⟨hcm, hlen, hIB, hIA, hIC⟩ := build_chains_inv P dNN hrange fuel st2 cmax hbc
  refine ⟨hIA, fun c => ⟨hIC c, ?_⟩⟩
  rintro ⟨h0, hc⟩
  obtain ⟨q, _, _, _, hd, _⟩ := hIA c h0 hc
  rw [hd]
  rfl

/-- Witness for C7 on the strictly ascending two-particle configuration:
chain `0` is created, and its unique terminal member is particle 1. -/
theorem build_chains_unique_terminal_witness :
    build_chains exampleAscP (densestNNcompute exampleAscP.density exampleAscP.NNtags) 2 =
      some (⟨[0, 0], [(0, 5)], []⟩, 1) ∧
    (∃ q, q < exampleAscP.size ∧
      (⟨[0, 0], [(0, 5)], []⟩ : HopState).chainID.getD q (-1) = 0 ∧
      terminalPart exampleAscP
        (densestNNcompute exampleAscP.density exampleAscP.NNtags) q ∧
      dictGet (⟨[0, 0], [(0, 5)], []⟩ : HopState).densest_in_chain 0 =
        some (exampleAscP.density.getD q 0) ∧
      (∀ j, j < exampleAscP.size →
        (⟨[0, 0], [(0, 5)], []⟩ : HopState).chainID.getD j (-1) = 0 →
        terminalPart exampleAscP
          (densestNNcompute exampleAscP.density exampleAscP.NNtags) j → j = q)) :=
  ⟨by decide,
    (build_chains_unique_terminal exampleAscP
      (densestNNcompute exampleAscP.density exampleAscP.NNtags) 2
      ⟨[0, 0], [(0, 5)], []⟩ 1
      (by intro i hi
          have h2 : i < 2 := hi
          interval_cases i <;> decide)
      (by decide)).1 0 (by decide) (by decide)⟩

/-- Witness for the amended C3: on the strictly ascending two-particle
configuration, the recursion returns within fuel `size = 2`, and an
already-assigned particle is skipped by the loop body. -/
theorem recurse_links_terminates_witness :
    (recurse_links exampleAscP
      (densestNNcompute exampleAscP.density exampleAscP.NNtags)
      exampleAscP.size (hopInit exampleAscP) 0 0).isSome = true ∧
    build_chains_step exampleAscP
      (densestNNcompute exampleAscP.density exampleAscP.NNtags) 1
      (some (⟨[0, 0], [(0, 5)], []⟩, 1)) 0 = some (⟨[0, 0], [(0, 5)], []⟩, 1) :=
  ⟨(recurse_links_terminates exampleAscP
      (densestNNcompute exampleAscP.density exampleAscP.NNtags)
      (by intro i hi
          have h2 : i < 2 := hi
          interval_cases i <;> decide)
      (by intro i hi
          have h2 : i < 2 := hi
          interval_cases i <;> decide)
      (hopInit exampleAscP) 0 0 (by decide) (by decide)).1,
    (recurse_links_terminates exampleAscP
      (densestNNcompute exampleAscP.density exampleAscP.NNtags)
      (by intro i hi
          have h2 : i < 2 := hi
          interval_cases i <;> decide)
      (by intro i hi
          have h2 : i < 2 := hi
          interval_cases i <;> decide)
      (hopInit exampleAscP) 0 0 (by decide) (by decide)).2 1 ⟨[0, 0], [(0, 5)], []⟩ 1 0
      (by decide)⟩

/-! ### The boundary exchange is unreachable and unfinished (C1, C8, C10) -/

/-- C1: `_connect_chains_across_tasks` never completes even one exchange
round: on any state and any positive fuel, the very first call to
`_build_uphill_info` executes `sys.exit()`, so no received reassignment is
ever applied to `chainID`, no per-partition changed flag is ever raised
(the `changes` counter is reset to 0 at the top of the body and never
incremented anywhere), and no global logical-OR reduction of changed flags
exists in the body at all. -/
theorem connect_chains_across_tasks_exits (P : HopParams) (nbr : List Int → Int)
    (fuel : Nat) (st : HopState) :
    connect_chains_across_tasks P nbr (fuel + 1) st = Except.error PyErr.sysExit := rfl

/-- C8: the count phase of `_communicate_uphill_info` does send one
non-negative count message for each of the 26 neighbour directions, but
the payload phase can never send a record: with one padded record queued
for direction 14, evaluating `na.array([info.particle_index, chainID])`
reads the unbound name `chainID` (line 248; the code means `info.chainID`)
and raises `NameError` before anything is sent. -/
theorem communicate_uphill_info_nameerror :
    (send_counts (fun _ => 5) ((List.replicate 27 0).set 14 1)).length = 26 ∧
    (∀ p ∈ send_counts (fun _ => 5) ((List.replicate 27 0).set 14 1), 0 ≤ p.2) ∧
    send_payloads (fun _ => 5) ((List.replicate 27 0).set 14 1)
      ((List.replicate 27 ([] : List PaddedPart)).set 14 [⟨0, 42, 7, [0, 0, 1]⟩]) =
      Except.error PyErr.nameErr := by
  refine ⟨by decide, by decide, by rfl⟩

theorem compact_getD_neg (rm : List (Int × Int))
    (hnd : (rm.map Prod.fst).Nodup)
    (hge : ∀ c : Int, -1 ≤ dictGetD rm c (-1))
    (c : Int) (hc : dictGetD rm c (-1) = -1) :
    dictGetD (compact_groupIDs rm).1 c (-1) = -1 := by
  by_cases hneg : (-1 : Int) ∈ rm.map Prod.snd
  · have hvals : ∀ v ∈ rm.map Prod.snd, v = -1 ∨ 0 ≤ v := by
      intro v hv
      have := values_ge_of_getD rm hnd hge v hv
      omega
    have hmain := (compact_groupIDs_spec rm hneg hvals).1
    rw [hmain]
    unfold dictGetD
    rw [dictGet_map_values
      (fun v => (((sortedSet (rm.map Prod.snd)).indexOf v : Int) - 1)) c rm]
    cases hkey : dictGet rm c with
    | none => rfl
    | some v =>
        have hv : v = -1 := by
          unfold dictGetD at hc
          rw [hkey] at hc
          exact hc
        have hidx0 : (sortedSet (rm.map Prod.snd)).indexOf (-1) = 0 :=
          indexOf_zero_of_min (sortedSet_sorted_lt _) (mem_sortedSet.mpr hneg)
            (fun w hw => by
              rcases hvals w (mem_sortedSet.mp hw) with h | h <;> omega)
        show ((sortedSet (rm.map Prod.snd)).indexOf v : Int) - 1 = -1
        rw [hv, hidx0]
        norm_num
  · have hck : c ∉ rm.map Prod.fst := by
      intro hmemk
      have hsome := dictGet_eq_some (-1) hmemk
      have hpair := mem_of_dictGet hsome
      rw [hc] at hpair
      exact hneg (List.mem_map.mpr ⟨(c, -1), hpair, rfl⟩)
    have hck2 : c ∉ (compact_groupIDs rm).1.map Prod.fst := by
      rw [compact_keys]
      exact hck
    rw [dictGetD, dictGet_none hck2]
    rfl

theorem build_groups_eq (pk sd : ℚ) (cc : Nat) (din : List (Int × ℚ))
    (cdn : List (Int × List (Int × ℚ))) (rm : List (Int × Int)) (fuel : Nat) :
    build_groups pk sd cc din cdn rm fuel =
      match fringe_loop fuel (main_links pk sd din cdn
        { reverse_map := (seed_groups pk din rm).1,
          densestbound := (List.range cc).map (fun i => (Int.ofNat i, (-1 : ℚ))),
          g_high := [], g_low := [], g_dens := [] }) with
      | none => none
      | some s2 => some (compact_groupIDs s2.reverse_map) := rfl

/-- C9: `_build_groups` is idempotent on its own output: if a first run
from the freshly initialised `reverse_map` (every chain at `-1`) returns
the rewritten map `rm1` with group count `k1`, then running `_build_groups`
again on `rm1` — with the same `densest_in_chain` and recorded chain
linkages, `densestbound` reset as the code resets it — returns exactly the
same `(rm1, k1)`.  The hypotheses are the data-shape invariants of the
chain phase: every recorded link goes from a denser chain to a less dense
one, and all chains mentioned are known to `densest_in_chain` and to the
initial `reverse_map`. -/
theorem build_groups_idempotent (pk sd : ℚ) (chain_count : Nat)
    (din : List (Int × ℚ)) (cdn : List (Int × List (Int × ℚ))) (fuel : Nat)
    (rm1 : List (Int × Int)) (k1 : Int)
    (hord : ∀ hp ∈ cdn, ∀ pr ∈ hp.2, dictGetD din pr.1 0 ≤ dictGetD din hp.1 0)
    (hch : ∀ hp ∈ cdn, hp.1 ∈ din.map Prod.fst)
    (hcl : ∀ hp ∈ cdn, ∀ pr ∈ hp.2, pr.1 ∈ din.map Prod.fst)
    (hdk : ∀ p ∈ din, p.1 ∈ (initial_reverse_map chain_count).map Prod.fst)
    (h1 : build_groups pk sd chain_count din cdn (initial_reverse_map chain_count) fuel
      = some (rm1, k1)) :
    build_groups pk sd chain_count din cdn rm1 fuel = some (rm1, k1) := by
  have hnd0 : ((initial_reverse_map chain_count).map Prod.fst).Nodup :=
    initial_keys_nodup chain_count
  have hrm0 : ∀ c : Int, dictGetD (initial_reverse_map chain_count) c (-1) = -1 :=
    fun c => getD_range_const chain_count (-1) c
  have hdb0 : ∀ c : Int, dictGetD
      ((List.range chain_count).map (fun i => (Int.ofNat i, (-1 : ℚ)))) c (-1) = -1 :=
    fun c => getD_range_const chain_count (-1 : ℚ) c
  obtain ⟨o1, o2, o3, _⟩ :=
    seed_s_facts pk ((initial_reverse_map chain_count).map Prod.fst) din
      (initial_reverse_map chain_count) 0 le_rfl rfl hdk
      (fun c => le_of_eq (hrm0 c).symm)
  have good_s0 : bgGood pk din ((initial_reverse_map chain_count).map Prod.fst)
      { reverse_map := (seed_groups pk din (initial_reverse_map chain_count)).1,
        densestbound := (List.range chain_count).map (fun i => (Int.ofNat i, (-1 : ℚ))),
        g_high := [], g_low := [], g_dens := [] } := by
    refine ⟨o1, ?_, o2, ?_, o3, ?_⟩
    · intro x hx
      cases hx
    · intro c hdbc
      rw [show dictGetD
          ({ reverse_map := (seed_groups pk din (initial_reverse_map chain_count)).1,
             densestbound :=
               (List.range chain_count).map (fun i => (Int.ofNat i, (-1 : ℚ))),
             g_high := [], g_low := [], g_dens := [] } : BGState).densestbound c (-1) =
          (-1 : ℚ) from hdb0 c] at hdbc
      exact absurd hdbc (lt_irrefl _)
    · intro c
      exact le_of_eq (hdb0 c).symm
  rw [build_groups_eq] at h1
  cases hfr : fringe_loop fuel (main_links pk sd din cdn
      { reverse_map := (seed_groups pk din (initial_reverse_map chain_count)).1,
        densestbound := (List.range chain_count).map (fun i => (Int.ofNat i, (-1 : ℚ))),
        g_high := [], g_low := [], g_dens := [] }) with
  | none =>
      rw [hfr] at h1
      exact Option.noConfusion h1
  | some s2 =>
  rw [hfr] at h1
  have hcomp : compact_groupIDs s2.reverse_map = (rm1, k1) := by
    have h2 : some (compact_groupIDs s2.reverse_map) = some (rm1, k1) := h1
    injection h2
  have hml := main_links_sim pk sd din s2.reverse_map
    ((initial_reverse_map chain_count).map Prod.fst) cdn hord hch hcl hdk _ _
    (bgCoupled_refl s2.reverse_map _) good_s0
  have good_s1 := hml.2
  obtain ⟨_s2b, hfrb, _hcb, good_s2⟩ := fringe_loop_sim pk din s2.reverse_map
    ((initial_reverse_map chain_count).map Prod.fst) fuel _ _ s2
    (bgCoupled_refl s2.reverse_map _) good_s1 hfr
  have hkeys2 : s2.reverse_map.map Prod.fst =
      (initial_reverse_map chain_count).map Prod.fst := good_s2.1
  have hge2 : ∀ c : Int, -1 ≤ dictGetD s2.reverse_map c (-1) := good_s2.2.2.1
  have hnd2 : (s2.reverse_map.map Prod.fst).Nodup := by
    rw [hkeys2]
    exact hnd0
  have hrm1 : rm1 = (compact_groupIDs s2.reverse_map).1 :=
    (congrArg Prod.fst hcomp).symm
  have hkeys1 : rm1.map Prod.fst = (initial_reverse_map chain_count).map Prod.fst := by
    rw [hrm1, compact_keys, hkeys2]
  have hB1 : ∀ c : Int, dictGetD s2.reverse_map c (-1) = -1 →
      dictGetD rm1 c (-1) = -1 := by
    intro c hc
    rw [hrm1]
    exact compact_getD_neg s2.reverse_map hnd2 hge2 c hc
  obtain ⟨_p1, p2, p3⟩ :=
    seed_par pk s2.reverse_map ((initial_reverse_map chain_count).map Prod.fst) din
      (initial_reverse_map chain_count) rm1 0 le_rfl rfl hkeys1 hdk
      (fun c => ⟨fun hne => absurd (hrm0 c) hne, fun _ hpre => hB1 c hpre⟩)
  have coup0 : bgCoupled s2.reverse_map
      { reverse_map := (seed_groups pk din (initial_reverse_map chain_count)).1,
        densestbound := (List.range chain_count).map (fun i => (Int.ofNat i, (-1 : ℚ))),
        g_high := [], g_low := [], g_dens := [] }
      { reverse_map := (seed_groups pk din rm1).1,
        densestbound := (List.range chain_count).map (fun i => (Int.ofNat i, (-1 : ℚ))),
        g_high := [], g_low := [], g_dens := [] } :=
    ⟨rfl, rfl, rfl, rfl, p2.trans o1.symm, p3⟩
  have hml2 := main_links_sim pk sd din s2.reverse_map
    ((initial_reverse_map chain_count).map Prod.fst) cdn hord hch hcl hdk _ _
    coup0 good_s0
  obtain ⟨t2, ht2, hct2, _⟩ := fringe_loop_sim pk din s2.reverse_map
    ((initial_reverse_map chain_count).map Prod.fst) fuel _ _ s2 hml2.1 good_s1 hfr
  obtain ⟨_, _, _, _, hkmap2, hAB2⟩ := hct2
  have hrmeq : t2.reverse_map = s2.reverse_map := by
    apply assoc_ext t2.reverse_map s2.reverse_map hkmap2
    · rw [hkmap2, hkeys2]
      exact hnd0
    · intro k
      by_cases hk : k ∈ (initial_reverse_map chain_count).map Prod.fst
      · have hs : dictGet s2.reverse_map k = some (dictGetD s2.reverse_map k (-1)) :=
          dictGet_eq_some (-1) (by rw [hkeys2]; exact hk)
        have ht : dictGet t2.reverse_map k = some (dictGetD t2.reverse_map k (-1)) :=
          dictGet_eq_some (-1) (by rw [hkmap2, hkeys2]; exact hk)
        rw [hs, ht]
        by_cases hv : dictGetD s2.reverse_map k (-1) = -1
        · rw [hv, (hAB2 k).2 hv hv]
        · rw [(hAB2 k).1 hv]
      · rw [dictGet_none (fun hm => hk (by rw [← hkeys2, ← hkmap2]; exact hm)),
          dictGet_none (fun hm => hk (by rw [← hkeys2]; exact hm))]
  rw [build_groups_eq, ht2]
  show some (compact_groupIDs t2.reverse_map) = some (rm1, k1)
  rw [hrmeq, hcomp]

/-- C9 witness: with `peakthresh = 5`, `saddlethresh = 7`, three chains of
peak densities `10, 2, 1`, one recorded link from chain `0` down to chain
`1` at density `4`, a first run groups chains `0` and `1` into group `0`,
leaves chain `2` at `-1`, and reports one group — and a second run on that
output returns exactly the same map and count. -/
theorem build_groups_idempotent_witness :
    build_groups 5 7 3 [(0, 10), (1, 2), (2, 1)] [(0, [(1, 4)])]
      (initial_reverse_map 3) 3 = some ([(0, 0), (1, 0), (2, -1)], 1) ∧
    build_groups 5 7 3 [(0, 10), (1, 2), (2, 1)] [(0, [(1, 4)])]
      [(0, 0), (1, 0), (2, -1)] 3 = some ([(0, 0), (1, 0), (2, -1)], 1) :=
  ⟨by decide,
   build_groups_idempotent 5 7 3 [(0, 10), (1, 2), (2, 1)] [(0, [(1, 4)])] 3
     [(0, 0), (1, 0), (2, -1)] 1
     (by decide) (by decide) (by decide) (by decide) (by decide)⟩

/-- C10: `_build_uphill_info` unconditionally calls `sys.exit()` after
constructing the per-direction record lists, so for every input the
`_chain_hop` pipeline never completes normally — it either aborts inside
the chain recursion or exits in `_build_uphill_info` — and the stages for
the boundary payload exchange, `_connect_chains`, `_build_groups` and
`_translate_groupIDs` are never reached. -/
theorem chain_hop_never_proceeds (P : HopParams) (mine : Nat)
    (chain_info : List (Nat × Int)) (fuel : Nat) :
    (∀ st, build_uphill_info P st = Except.error PyErr.sysExit) ∧
    ((chain_hop P mine chain_info fuel).1 = Except.error PyErr.sysExit ∨
      (chain_hop P mine chain_info fuel).1 = Except.error PyErr.recursionErr) ∧
    Stage.connectChainsStage ∉ (chain_hop P mine chain_info fuel).2 ∧
    Stage.buildGroupsStage ∉ (chain_hop P mine chain_info fuel).2 ∧
    Stage.translateGroupIDsStage ∉ (chain_hop P mine chain_info fuel).2 := by
  cases hbc : build_chains P (densestNNcompute P.density P.NNtags) fuel with
  | none =>
      have heq : chain_hop P mine chain_info fuel =
          (Except.error PyErr.recursionErr,
            [Stage.initKDTree, Stage.isInside, Stage.densityStage, Stage.densestNNStage,
             Stage.buildChainsStage]) := by
        unfold chain_hop
        rw [hbc]
      rw [heq]
      exact ⟨fun st => rfl, Or.inr rfl, by decide, by decide, by decide⟩
  | some val =>
      obtain ⟨st, c⟩ := val
      have heq : chain_hop P mine chain_info fuel =
          (Except.error PyErr.sysExit,
            [Stage.initKDTree, Stage.isInside, Stage.densityStage, Stage.densestNNStage,
             Stage.buildChainsStage, Stage.assignChainIDs, Stage.buildUphillInfo]) := by
        unfold chain_hop
        rw [hbc]
        rfl
      rw [heq]
      exact ⟨fun st => rfl, Or.inl rfl, by decide, by decide, by decide⟩

end ChainHOP
